import Mathlib

/- Verification development for the staged-index virtual filesystem provider
   ("I Can't Believe (G)it's Not A File").

   The source is TypeScript; we shallowly embed it here.  External libraries
   are modelled at their observable boundary:
   - node `path.posix` functions (`basename`, `dirname`, `join`, `relative`,
     `normalize`) are transliterated from node's algorithms at the
     character-list level;
   - JS string primitives (`trim`, single-character `split`) likewise;
   - `vscode.Uri` is a record of scheme/authority/path/query/fragment with
     `Uri.from` shape validation, `Uri.file` UNC parsing and posix `fsPath`;
   - the git command-line oracle is an explicit state (object store, index,
     repository root) with the plumbing commands the source invokes;
   - node `fs` is a working-tree map inside the same state.

   Thrown JS exceptions are modelled with `Option`/`Except`. -/

/-- JS whitespace characters (the ASCII subset; all strings the source trims
    are hex hashes, octal modes, object types and paths, so the Unicode
    whitespace code points never occur). -/
def isJsWs (c : Char) : Bool :=
  c = ' ' || c = '\t' || c = '\n' || c = '\r' || c = '\x0b' || c = '\x0c'

/-- JS `String.prototype.trim`. -/
def jsTrim (s : String) : String :=
  ⟨((s.data.dropWhile isJsWs).reverse.dropWhile isJsWs).reverse⟩

/-- JS `String.prototype.split` with a one-character separator, at the
    character-list level.  Never returns `[]`; splitting the empty string
    yields one empty piece, exactly as in JS. -/
def splitCh (sep : Char) : List Char → List (List Char)
  | [] => [[]]
  | c :: rest =>
    match splitCh sep rest with
    | [] => [[]]
    | piece :: pieces =>
      if c = sep then [] :: piece :: pieces else (c :: piece) :: pieces

/-- JS `String.prototype.split` with a one-character separator. -/
def jsSplit (sep : Char) (s : String) : List String :=
  (splitCh sep s.data).map (fun l => (⟨l⟩ : String))

/-- Intercalate a list of character lists with a single separator character. -/
def icSep (sep : Char) : List (List Char) → List Char
  | [] => []
  | [x] => x
  | x :: y :: xs => x ++ sep :: icSep sep (y :: xs)

/-- Node `path.posix.basename` (one-argument form): skip trailing slashes,
    then take the final slash-free run. -/
def pathBasename (p : String) : String :=
  ⟨(((p.data.reverse).dropWhile (· = '/')).takeWhile (· ≠ '/')).reverse⟩

/-- Node `path.posix.dirname`: scan from the end, skipping trailing slashes,
    to the slash terminating the final component; everything strictly before
    it is the directory.  The scan never inspects index 0; `//` is returned
    for a rooted path whose terminating slash sits at index 1. -/
def pathDirname (p : String) : String :=
  if p = "" then "."
  else
    let hasRoot := p.data.head? = some '/'
    let r := ((p.data.reverse).dropWhile (· = '/')).dropWhile (· ≠ '/')
    if r.length ≤ 1 then (if hasRoot then "/" else ".")
    else if hasRoot ∧ r.length = 2 then "//"
    else ⟨(r.tail).reverse⟩

/-- One step of node's `normalizeString`: resolve a `.` or `..` segment
    against the stack of already-emitted segments. -/
def normStep (allowUp : Bool) (stack : List (List Char)) (seg : List Char) :
    List (List Char) :=
  if seg = ['.'] then stack
  else if seg = ['.', '.'] then
    if stack ≠ [] ∧ stack.getLast? ≠ some ['.', '.'] then stack.dropLast
    else if allowUp then stack ++ [seg] else stack
  else stack ++ [seg]

/-- Node `path.posix.normalize`. -/
def pathNormalize (p : String) : String :=
  if p = "" then "."
  else
    let isAbs := p.data.head? = some '/'
    let trailing := p.data.getLast? = some '/'
    let segs := (splitCh '/' p.data).filter (· ≠ [])
    let stack := segs.foldl (normStep (¬ isAbs)) []
    let body := icSep '/' stack
    if body = [] then
      (if isAbs then "/" else if trailing then "./" else ".")
    else
      ⟨(if isAbs then ['/'] else []) ++ body ++ (if trailing then ['/'] else [])⟩

/-- Node `path.posix.join`: drop empty arguments, glue with `/`, normalize. -/
def pathJoinList (args : List String) : String :=
  let parts := args.filter (· ≠ "")
  if parts = [] then "." else pathNormalize ⟨icSep '/' (parts.map String.data)⟩

def pathJoin2 (a b : String) : String := pathJoinList [a, b]

def pathJoin3 (a b c : String) : String := pathJoinList [a, b, c]

/-- Segments of an absolute path after normalization (`..` cannot escape the
    root, mirroring `allowAboveRoot = false`). -/
def absSegs (p : String) : List (List Char) :=
  ((splitCh '/' p.data).filter (· ≠ [])).foldl (normStep false) []

/-- Strip the common prefix of two segment lists. -/
def dropCommonPre :
    List (List Char) → List (List Char) → List (List Char) × List (List Char)
  | x :: xs, y :: ys => if x = y then dropCommonPre xs ys else (x :: xs, y :: ys)
  | xs, ys => (xs, ys)

/-- Node `path.posix.relative`, modelled for absolute inputs (the source only
    calls it on the repository root and an absolute local path): strip the
    common segment prefix, then climb with `..` and descend. -/
def pathRelative (f t : String) : String :=
  let p := dropCommonPre (absSegs f) (absSegs t)
  ⟨icSep '/' (p.1.map (fun _ => ['.', '.']) ++ p.2)⟩

/-- The provider's URI scheme tag (`SCHEME` in the source). -/
def SCHEME : String := "icantbelievegit"

/-- The marker directory segment (`PREFIX_DIR` in the source). -/
def PREFIX_DIR : String := "staged"

/-- A `vscode.Uri`: scheme, authority, path, query, fragment. -/
structure Uri where
  scheme : String
  authority : String
  path : String
  query : String
  fragment : String
deriving DecidableEq, Repr

/-- `vscode.Uri.from` shape validation (`_validateUri`): a nonempty path must
    start with a slash when an authority is present, and must not start with
    two slashes when there is none.  `none` models the thrown error. -/
def uriFrom (scheme authority path : String) : Option Uri :=
  if path ≠ "" ∧ authority ≠ "" ∧ path.data.head? ≠ some '/' then none
  else if path ≠ "" ∧ authority = "" ∧ path.data.take 2 = ['/', '/'] then none
  else some ⟨scheme, authority, path, "", ""⟩

/-- `vscode.Uri.fsPath` on a posix platform: a file URI with an authority and
    a non-trivial path renders as a UNC-style `//authority/path`. -/
def fsPath (u : Uri) : String :=
  if u.authority ≠ "" ∧ 1 < u.path.length ∧ u.scheme = "file" then
    "//" ++ u.authority ++ u.path
  else u.path

/-- `vscode.Uri.file` on a posix platform: a leading `//` is parsed back into
    an authority. -/
def uriFile (p : String) : Uri :=
  match p.data with
  | '/' :: '/' :: rest =>
    let auth := rest.takeWhile (· ≠ '/')
    let rem := rest.dropWhile (· ≠ '/')
    ⟨"file", ⟨auth⟩, if rem = [] then "/" else ⟨rem⟩, "", ""⟩
  | _ => ⟨"file", "", p, "", ""⟩

/-- `toLocalPath` from the source: assert the provider scheme, empty query and
    fragment, and that the parent segment of the path is the marker directory;
    then rebuild a file URI with the marker stripped and return its `fsPath`.
    `none` models a thrown assertion (or `Uri.from` validation) error. -/
def toLocalPath (uri : Uri) : Option String :=
  if uri.scheme ≠ SCHEME then none
  else if uri.query ≠ "" then none
  else if uri.fragment ≠ "" then none
  else if pathBasename (pathDirname uri.path) ≠ PREFIX_DIR then none
  else
    (uriFrom "file" uri.authority
      (pathJoin2 (pathDirname (pathDirname uri.path)) (pathBasename uri.path))).map
      fsPath

/-- `fromLocalPath` from the source: assert the file scheme and empty query
    and fragment, then insert the marker directory immediately before the
    final path component. -/
def fromLocalPath (uri : Uri) : Option Uri :=
  if uri.scheme ≠ "file" then none
  else if uri.query ≠ "" then none
  else if uri.fragment ≠ "" then none
  else uriFrom SCHEME uri.authority
    (pathJoin3 (pathDirname uri.path) PREFIX_DIR (pathBasename uri.path))

/-- The validity conditions the claim states for a local URI: the local-file
    scheme with empty query and fragment. -/
def ValidLocal (u : Uri) : Prop :=
  u.scheme = "file" ∧ u.query = "" ∧ u.fragment = ""

/-- The validity conditions the claim states for a virtual URI: the provider
    scheme, empty query and fragment, and the marker segment immediately
    before the final path component (the source's own assertion shape). -/
def ValidVirtual (u : Uri) : Prop :=
  u.scheme = SCHEME ∧ u.query = "" ∧ u.fragment = "" ∧
    pathBasename (pathDirname u.path) = PREFIX_DIR

instance (u : Uri) : Decidable (ValidLocal u) := by
  unfold ValidLocal; infer_instance

instance (u : Uri) : Decidable (ValidVirtual u) := by
  unfold ValidVirtual; infer_instance

/-- Byte sequences (`Uint8Array` / `Buffer`). -/
abbrev Bytes := List Nat

/-- The kind reported by a node `fs.Stats` value. -/
inductive FKind
  | file
  | dir
  | symlink
  | other
deriving DecidableEq, Repr

/-- Node `fs.Stats`, restricted to the fields the source reads. -/
structure Stats where
  kind : FKind
  ctimeMs : Nat
  mtimeMs : Nat
  size : Nat
  mode : Nat
deriving DecidableEq, Repr

/-- `vscode.FileType`. -/
inductive FileType
  | Unknown
  | File
  | Directory
  | SymbolicLink
deriving DecidableEq, Repr

/-- `vscode.FileStat`. -/
structure FileStat where
  type : FileType
  ctime : Nat
  mtime : Nat
  size : Nat
deriving DecidableEq, Repr

/-- The error conditions the source can raise. -/
inductive FsErr
  | FileNotFound    -- vscode.FileSystemError.FileNotFound
  | NotImplemented  -- thrown `Error('... not implemented.')`
  | AssertFailed    -- thrown by the `assert` helper / Uri validation
  | NodeErr         -- an uncaught node `fs` error propagated (ENOENT, EISDIR)
  | GitFailed       -- a git subprocess exited nonzero (execFile rejection)
deriving DecidableEq, Repr

/-- One staged index row as the oracle reports it. -/
structure IndexEntry where
  mode : String   -- %(objectmode), octal string
  hash : String   -- %(objectname)
  otype : String  -- %(objecttype), "blob" or "tree"
deriving DecidableEq, Repr

/-- The oracle/filesystem state: one repository.
    - `root`: what `git rev-parse --show-toplevel` prints (trimmed);
    - `index`: staged entries keyed by repository-root-relative path, in
      listing order (several rows per key model merge-conflict stages);
    - `objects`: the content-addressed store, newest first, so a lookup after
      `hash-object -w` sees the just-written content;
    - `worktree`: node `fs` view, keyed by absolute local path;
    - `indexStat`: `fs.stat` of `<root>/.git/index`.
    Directory-pathspec recursive matching and git's octal-mode validation of
    `--cacheinfo` are outside the model; the claims only exercise file paths
    with well-formed modes. -/
structure GitState where
  root : String
  index : List (String × IndexEntry)
  objects : List (String × Bytes)
  worktree : List (String × Stats × Bytes)
  indexStat : Stats
deriving DecidableEq, Repr

/-- One git subprocess invocation, for observing oracle traffic. -/
inductive GitCall
  | revParse
  | lsFiles (format : String) (pathspec : String)
  | catFileSize (hash : String)
  | catFileBlob (hash : String)
  | hashObject (content : Bytes)
  | updateIndex (add : Bool) (mode : String) (hash : String) (relPath : String)
deriving DecidableEq, Repr

/-- `fs.stat`/`fs.readFile` lookup in the working tree. -/
def wtLookup (s : GitState) (p : String) : Option (Stats × Bytes) :=
  (s.worktree.find? (fun e => e.1 = p)).map (·.2)

/-- Object-store lookup (`git cat-file`). -/
def objLookup (s : GitState) (h : String) : Option Bytes :=
  (s.objects.find? (fun e => e.1 = h)).map (·.2)

/-- The repository-root-relative index key for a local path, as git resolves
    an absolute `--literal-pathspecs` pathspec. -/
def indexKey (s : GitState) (local_path : String) : String :=
  pathRelative s.root local_path

/-- `git ls-files --cached ... <local_path>`: the staged rows at that path,
    in index order. -/
def lsFilesAt (s : GitState) (local_path : String) : List IndexEntry :=
  (s.index.filter (fun kv => kv.1 = indexKey s local_path)).map (·.2)

/-- Raw stdout of a `--format=...` listing: one record per row, each
    terminated by a newline. -/
def stdoutOf (lines : List String) : String :=
  ⟨(lines.map (fun l => l.data ++ ['\n'])).flatten⟩

/-- `getGitRootForFile` from the source: `fs.stat` the path (ENOENT rejects
    the whole call), then ask `git rev-parse --show-toplevel`. -/
def getGitRootForFile (s : GitState) (p : String) : Except FsErr String :=
  match wtLookup s p with
  | none => .error .NodeErr
  | some _ => .ok s.root

/-- `TYPE_MAP` from the source, as the JS indexing expression behaves: an
    unmatched (or absent) key yields `undefined`, i.e. `none`. -/
def typeMap : Option String → Option FileType
  | some "blob" => some FileType.File
  | some "tree" => some FileType.Directory
  | _ => none

/-- `GitIndexFS.readFile`.  The second component records whether the
    multiple-entries warning was logged. -/
def readFileCore (s : GitState) (uri : Uri) : Except FsErr Bytes × Bool :=
  match toLocalPath uri with
  | none => (.error .AssertFailed, false)
  | some local_path =>
    let object_ids :=
      jsSplit '\n' (jsTrim (stdoutOf ((lsFilesAt s local_path).map (·.hash))))
    if object_ids.headD "" = "" then
      match wtLookup s local_path with
      | none => (.error .FileNotFound, false)
      | some wt =>
        if wt.1.kind = .dir then (.error .NodeErr, false) else (.ok wt.2, false)
    else
      let warned := 1 < object_ids.length
      match objLookup s (object_ids.headD "") with
      | none => (.error .GitFailed, warned)
      | some bytes => (.ok bytes, warned)

def readFile (s : GitState) (uri : Uri) : Except FsErr Bytes :=
  (readFileCore s uri).1

/-- `GitIndexFS.stat`.  The second component records whether the
    multiple-entries warning was logged. -/
def statCore (s : GitState) (uri : Uri) : Except FsErr FileStat × Bool :=
  match toLocalPath uri with
  | none => (.error .AssertFailed, false)
  | some local_path =>
    let entries :=
      jsSplit '\n' (jsTrim (stdoutOf ((lsFilesAt s local_path).map
        (fun e => e.otype ++ "\x00" ++ e.hash))))
    if entries.headD "" = "" then
      match wtLookup s local_path with
      | none => (.error .FileNotFound, false)
      | some wt =>
        (.ok
          { type :=
              match wt.1.kind with
              | .file => .File
              | .dir => .Directory
              | .symlink => .SymbolicLink
              | .other => .Unknown
            ctime := wt.1.ctimeMs
            mtime := wt.1.mtimeMs
            size := wt.1.size }, false)
    else
      let warned := 1 < entries.length
      let parts := jsSplit '\x00' (entries.headD "")
      let object_type := parts.headD ""
      let object_id := (parts.drop 1).headD ""
      match objLookup s object_id with
      | none => (.error .GitFailed, warned)
      | some bytes =>
        if typeMap (some object_type) = none then (.error .AssertFailed, warned)
        else
          match getGitRootForFile s local_path with
          | .error e => (.error e, warned)
          | .ok _ =>
            (.ok
              { type := (typeMap (some object_type)).getD .Unknown
                ctime := 0
                mtime := s.indexStat.mtimeMs
                size := bytes.length }, warned)

def stat (s : GitState) (uri : Uri) : Except FsErr FileStat :=
  (statCore s uri).1

/-- Immediate-child test for the `:(glob)<path>/*` pathspec: the index key
    extends the directory key by exactly one nonempty slash-free name. -/
def isChildKey (dirKey k : String) : Bool :=
  let pre := if dirKey = "" then [] else dirKey.data ++ ['/']
  decide (pre <+: k.data) &&
    (let rest := k.data.drop pre.length
     !rest.isEmpty && rest.all (· ≠ '/'))

/-- The staged rows listed by `readDirectory`'s glob query, in index order. -/
def childEntries (s : GitState) (local_path : String) :
    List (String × IndexEntry) :=
  s.index.filter (fun kv => isChildKey (indexKey s local_path) kv.1)

/-- The `%(path)` field git prints for a row: relative to the subprocess's
    working directory, which the source sets to the parent of the local
    path. -/
def shownPath (s : GitState) (local_path : String) (k : String) : String :=
  pathRelative (pathDirname local_path) (s.root ++ "/" ++ k)

/-- `GitIndexFS.readDirectory`: split the RAW stdout (no trim) on newlines
    and destructure each piece on the NUL separator; `console.assert` does
    not throw, so unmatched types pass through as `undefined` (`none`). -/
def readDirectory (s : GitState) (uri : Uri) :
    Except FsErr (List (String × Option FileType)) :=
  match toLocalPath uri with
  | none => .error .AssertFailed
  | some local_path =>
    let stdout := stdoutOf ((childEntries s local_path).map
      (fun kv => shownPath s local_path kv.1 ++ "\x00" ++ kv.2.otype))
    .ok ((jsSplit '\n' stdout).map (fun entry =>
      let parts := jsSplit '\x00' entry
      (parts.headD "", typeMap ((parts.drop 1).head?))))

/-- `git update-index [--add] --cacheinfo mode,hash,relPath`: replaces every
    stage of the entry at that path with the single new row; without `--add`
    a path absent from the index is an error. -/
def updateIndexOp (s : GitState) (add : Bool) (mode hash relPath : String) :
    Option GitState :=
  if s.index.any (fun kv => kv.1 = relPath) ∨ add then
    some { s with
      index := s.index.filter (fun kv => kv.1 ≠ relPath) ++
        [(relPath, ⟨mode, hash, "blob"⟩)] }
  else none

/-- Octal rendering of a mode, JS `Number.prototype.toString(8)`. -/
def octalRepr (n : Nat) : String := ⟨Nat.toDigits 8 n⟩

/-- `writeFile(uri, content, options)` options; the source declares them and
    never reads them. -/
structure WriteOptions where
  create : Bool
  overwrite : Bool
deriving DecidableEq, Repr

/-- `GitIndexFS.writeFile`, parameterized by the oracle's content hash
    function: write the blob, read the existing staged mode (empty output
    means untracked, triggering the working-tree mode fallback and the
    `--add` variant), then register the entry under the root-relative path.
    Returns the oracle-call trace alongside the outcome. -/
def writeFile (hashFn : Bytes → String) (s : GitState) (uri : Uri)
    (content : Bytes) (_options : WriteOptions) :
    Except FsErr GitState × List GitCall :=
  match toLocalPath uri with
  | none => (.error .AssertFailed, [])
  | some local_path =>
    let object_id := hashFn content
    let s1 := { s with objects := (object_id, content) :: s.objects }
    let calls1 := [GitCall.hashObject content]
    let existing_mode :=
      jsTrim (stdoutOf ((lsFilesAt s1 local_path).map (·.mode)))
    let calls2 := calls1 ++ [GitCall.lsFiles "%(objectmode)" local_path]
    let modeRes : Except FsErr String :=
      if existing_mode ≠ "" then .ok existing_mode
      else
        match wtLookup s1 local_path with
        | none => .error .NodeErr
        | some wt => .ok (octalRepr wt.1.mode)
    match modeRes with
    | .error e => (.error e, calls2)
    | .ok mode =>
      let add := existing_mode = ""
      match getGitRootForFile s1 local_path with
      | .error e => (.error e, calls2)
      | .ok git_root =>
        let relative_path := pathRelative git_root local_path
        let calls3 := calls2 ++ [GitCall.revParse]
        match updateIndexOp s1 add mode object_id relative_path with
        | none => (.error .GitFailed, calls3 ++
            [GitCall.updateIndex add mode object_id relative_path])
        | some s2 => (.ok s2, calls3 ++
            [GitCall.updateIndex add mode object_id relative_path])

/-- `GitIndexFS.createDirectory`: throws before touching anything. -/
def createDirectory (s : GitState) (_uri : Uri) :
    Except FsErr Unit × GitState × List GitCall :=
  (.error .NotImplemented, s, [])

/-- `GitIndexFS.delete`: throws before touching anything. -/
def delete (s : GitState) (_uri : Uri) (_recursive : Bool) :
    Except FsErr Unit × GitState × List GitCall :=
  (.error .NotImplemented, s, [])

/-- `GitIndexFS.rename`: throws before touching anything. -/
def rename (s : GitState) (_oldUri _newUri : Uri) (_overwrite : Bool) :
    Except FsErr Unit × GitState × List GitCall :=
  (.error .NotImplemented, s, [])

/-- `GitIndexFS.copy`: throws before touching anything. -/
def copy (s : GitState) (_source _destination : Uri) (_overwrite : Bool) :
    Except FsErr Unit × GitState × List GitCall :=
  (.error .NotImplemented, s, [])

/-- Per-subscription state of `GitIndexFS.watch`: the captured variables of
    the returned disposable (`git_root`, `listener`, `is_cancelled`) plus the
    vscode `Disposable` once-guard, and which watcher instance the listener
    was registered into. -/
structure WSub where
  root : String          -- what getGitRootForFile will resolve for this uri
  gitRoot : Option String
  watcherId : Option Nat
  listener : Bool
  isCancelled : Bool
  disposed : Bool
deriving DecidableEq, Repr

/-- One `GitIndexWatcher` instance: identity, repository root, the listener
    set (subscription ids), and whether it has been disposed. -/
structure WInst where
  wid : Nat
  root : String
  listeners : List Nat
  disposedW : Bool
deriving DecidableEq, Repr

/-- The provider's watch subsystem: all subscriptions ever returned, all
    watcher instances ever constructed, and the `_gitIndexWatchers` registry
    (root to live instance id). -/
structure WState where
  subs : Nat → Option WSub
  nextSub : Nat
  insts : List WInst
  registry : String → Option Nat
  nextW : Nat

/-- The watch events that can interleave on the single-threaded scheduler:
    a `watch` call (its root-resolution result is fixed by the uri), the
    resumption of that call's async body, and the disposal of its handle. -/
inductive WEvent
  | call (root : String)
  | resolve (sid : Nat)
  | dispose (sid : Nat)
deriving DecidableEq, Repr

def initW : WState :=
  ⟨fun _ => none, 0, [], fun _ => none, 0⟩

def setSub (f : Nat → Option WSub) (sid : Nat) (sub : WSub) : Nat → Option WSub :=
  fun n => if n = sid then some sub else f n

def setReg (f : String → Option Nat) (r : String) (v : Option Nat) :
    String → Option Nat :=
  fun x => if x = r then v else f x

/-- `Set.delete` on one instance's listener set. -/
def removeListener (insts : List WInst) (wid sid : Nat) : List WInst :=
  insts.map (fun w =>
    if w.wid = wid then { w with listeners := w.listeners.filter (· ≠ sid) }
    else w)

/-- `Set.add` on one instance's listener set. -/
def addListener (insts : List WInst) (wid sid : Nat) : List WInst :=
  insts.map (fun w =>
    if w.wid = wid then { w with listeners := w.listeners ++ [sid] } else w)

/-- Mark one instance disposed (its abort controller fired). -/
def disposeInst (insts : List WInst) (wid : Nat) : List WInst :=
  insts.map (fun w => if w.wid = wid then { w with disposedW := true } else w)

def getInst (insts : List WInst) (wid : Nat) : Option WInst :=
  insts.find? (fun w => w.wid = wid)

/-- One scheduler step.  `call` allocates the subscription synchronously;
    `resolve` runs the async body (at most once): if not cancelled it reuses
    the registry's watcher for the root or lazily creates one, and registers
    the listener; `dispose` runs the returned disposable's callback (at most
    once, the vscode guard): set the cancel flag, unregister the listener,
    and if the root's watcher is now listener-free, evict and dispose it. -/
def stepW (s : WState) : WEvent → WState
  | .call root =>
    { s with
      subs := setSub s.subs s.nextSub ⟨root, none, none, false, false, false⟩
      nextSub := s.nextSub + 1 }
  | .resolve sid =>
    match s.subs sid with
    | none => s
    | some sub =>
      if sub.gitRoot ≠ none then s
      else
        let sub1 := { sub with gitRoot := some sub.root }
        if sub.isCancelled then { s with subs := setSub s.subs sid sub1 }
        else
          match s.registry sub.root with
          | some wid =>
            { s with
              subs := setSub s.subs sid
                { sub1 with listener := true, watcherId := some wid }
              insts := addListener s.insts wid sid }
          | none =>
            { s with
              subs := setSub s.subs sid
                { sub1 with listener := true, watcherId := some s.nextW }
              insts := s.insts ++ [⟨s.nextW, sub.root, [sid], false⟩]
              registry := setReg s.registry sub.root (some s.nextW)
              nextW := s.nextW + 1 }
  | .dispose sid =>
    match s.subs sid with
    | none => s
    | some sub =>
      if sub.disposed then s
      else
        let sub1 := { sub with disposed := true, isCancelled := true }
        let insts1 :=
          match sub.watcherId with
          | some wid => if sub.listener then removeListener s.insts wid sid
              else s.insts
          | none => s.insts
        match sub.gitRoot with
        | none => { s with subs := setSub s.subs sid sub1, insts := insts1 }
        | some r =>
          match s.registry r with
          | none =>
            -- the source would dereference `undefined` here; unreachable
            { s with subs := setSub s.subs sid sub1, insts := insts1 }
          | some wid =>
            match getInst insts1 wid with
            | none => { s with subs := setSub s.subs sid sub1, insts := insts1 }
            | some w =>
              if w.listeners = [] then
                { s with
                  subs := setSub s.subs sid sub1
                  insts := disposeInst insts1 wid
                  registry := setReg s.registry r none }
              else { s with subs := setSub s.subs sid sub1, insts := insts1 }

def runW (evs : List WEvent) : WState :=
  evs.foldl stepW initW

/-- A state of the watch subsystem is reachable when some event interleaving
    produces it from the initial (activation-time) state. -/
def ReachableW (s : WState) : Prop :=
  ∃ evs : List WEvent, s = runW evs

/-- Number of not-yet-disposed watcher instances for a root. -/
def aliveFor (r : String) (s : WState) : Nat :=
  (s.insts.filter (fun w => decide (w.root = r) && !w.disposedW)).length

/-- Inductive invariant of the watch subsystem: registry entries point at
    live instances of the right root and conversely; instance ids are
    unique and below the allocation counter; disposed instances hold no
    listeners; a live subscription whose listener is registered knows its
    resolved root and sits in the listener set of a live instance for that
    root; a live subscription with a resolved root has a registered
    listener; the cancel flag tracks disposal. -/
def InvW (s : WState) : Prop :=
  (∀ r wid, s.registry r = some wid →
    ∃ w ∈ s.insts, w.wid = wid ∧ w.root = r ∧ w.disposedW = false) ∧
  (∀ w ∈ s.insts, w.disposedW = false → s.registry w.root = some w.wid) ∧
  (s.insts.Pairwise (fun a b => a.wid ≠ b.wid)) ∧
  (∀ w ∈ s.insts, w.disposedW = true → w.listeners = []) ∧
  (∀ w ∈ s.insts, w.wid < s.nextW) ∧
  (∀ sid, s.nextSub ≤ sid → s.subs sid = none) ∧
  (∀ sid sub, s.subs sid = some sub → sub.disposed = false →
    sub.listener = true →
      sub.gitRoot = some sub.root ∧
      ∃ w ∈ s.insts, sub.watcherId = some w.wid ∧ w.root = sub.root ∧
        sid ∈ w.listeners) ∧
  (∀ sid sub, s.subs sid = some sub → sub.disposed = false →
    sub.gitRoot ≠ none → sub.listener = true) ∧
  (∀ sid sub, s.subs sid = some sub → sub.isCancelled = sub.disposed)

/-- A canonical path segment: nonempty, slash-free, and not a dot segment. -/
def goodSegB (s : String) : Bool :=
  s ≠ "" && s.data.all (· ≠ '/') && s ≠ "." && s ≠ ".."

/-- The absolute path with the given segments, in canonical form. -/
def absOf (segs : List String) : String :=
  ⟨'/' :: icSep '/' (segs.map String.data)⟩

/-- A well-formed oracle output token (hash, mode, object type): nonempty and
    free of JS whitespace and of the NUL field separator. -/
def cleanStrB (s : String) : Bool :=
  s ≠ "" && s.data.all (fun c => !isJsWs c && c ≠ '\x00')

/-- The oracle's content hashes are well-formed tokens (git prints
    40-character hex names). -/
def GoodHash (hashFn : Bytes → String) : Prop :=
  ∀ b, cleanStrB (hashFn b) = true

/- ------------------------------------------------------------------ -/
/- Helper lemmas: dropWhile/takeWhile/splitCh/icSep                    -/
/- ------------------------------------------------------------------ -/

theorem dropWhile_append_all {α} (p : α → Bool) (xs ys : List α)
    (h : ∀ x ∈ xs, p x = true) :
    (xs ++ ys).dropWhile p = ys.dropWhile p := by
  induction xs with
  | nil => simp
  | cons a t ih =>
    have ha : p a = true := h a (by simp)
    simp [List.dropWhile, ha]
    exact ih (fun x hx => h x (by simp [hx]))

theorem dropWhile_append_head {α} (p : α → Bool) (xs ys : List α)
    (hne : xs ≠ []) (h : ∀ x ∈ xs, p x = false) :
    (xs ++ ys).dropWhile p = xs ++ ys := by
  cases xs with
  | nil => exact absurd rfl hne
  | cons a t =>
    have ha : p a = false := h a (by simp)
    simp [List.dropWhile, ha]

theorem takeWhile_append_all {α} (p : α → Bool) (xs ys : List α)
    (h : ∀ x ∈ xs, p x = true) :
    (xs ++ ys).takeWhile p = xs ++ ys.takeWhile p := by
  induction xs with
  | nil => simp
  | cons a t ih =>
    have ha : p a = true := h a (by simp)
    simp [List.takeWhile, ha]
    exact ih (fun x hx => h x (by simp [hx]))

theorem takeWhile_cons_neg {α} (p : α → Bool) (a : α) (l : List α)
    (h : p a = false) : (a :: l).takeWhile p = [] := by
  simp [List.takeWhile, h]

theorem splitCh_ne_nil (sep : Char) (l : List Char) : splitCh sep l ≠ [] := by
  induction l with
  | nil => simp [splitCh]
  | cons c rest ih =>
    simp only [splitCh]
    cases hs : splitCh sep rest with
    | nil => simp
    | cons piece pieces =>
      by_cases hc : c = sep <;> simp [hc]

theorem splitCh_all_ne (sep : Char) (l : List Char)
    (h : ∀ c ∈ l, c ≠ sep) : splitCh sep l = [l] := by
  induction l with
  | nil => simp [splitCh]
  | cons c rest ih =>
    have hc : c ≠ sep := h c (by simp)
    have hr := ih (fun x hx => h x (by simp [hx]))
    simp [splitCh, hr, hc]

theorem splitCh_append_sep (sep : Char) (xs ys : List Char)
    (h : ∀ c ∈ xs, c ≠ sep) :
    splitCh sep (xs ++ sep :: ys) = xs :: splitCh sep ys := by
  induction xs with
  | nil =>
    simp only [List.nil_append, splitCh]
    cases hs : splitCh sep ys with
    | nil => exact absurd hs (splitCh_ne_nil sep ys)
    | cons piece pieces => simp
  | cons c t ih =>
    have hc : c ≠ sep := h c (by simp)
    have hr := ih (fun x hx => h x (by simp [hx]))
    simp only [List.cons_append, splitCh, List.append_eq]
    rw [hr]
    simp [hc]

theorem icSep_cons_of_ne (sep : Char) (x : List Char) (t : List (List Char))
    (h : t ≠ []) : icSep sep (x :: t) = x ++ sep :: icSep sep t := by
  cases t with
  | nil => exact absurd rfl h
  | cons y ys => rfl

theorem icSep_append (sep : Char) (l1 l2 : List (List Char))
    (h1 : l1 ≠ []) (h2 : l2 ≠ []) :
    icSep sep (l1 ++ l2) = icSep sep l1 ++ sep :: icSep sep l2 := by
  induction l1 with
  | nil => exact absurd rfl h1
  | cons x t ih =>
    cases t with
    | nil =>
      simp only [List.cons_append, List.nil_append]
      rw [icSep_cons_of_ne sep x l2 h2]
      simp [icSep]
    | cons y ys =>
      rw [List.cons_append, icSep_cons_of_ne sep x ((y :: ys) ++ l2) (by simp),
        ih (by simp), icSep_cons_of_ne sep x (y :: ys) (by simp)]
      simp

theorem icSep_ne_nil (sep : Char) (L : List (List Char))
    (hL : L ≠ []) (h : ∀ x ∈ L, x ≠ []) : icSep sep L ≠ [] := by
  cases L with
  | nil => exact absurd rfl hL
  | cons x t =>
    cases t with
    | nil => exact h x (by simp)
    | cons y ys =>
      rw [icSep_cons_of_ne sep x (y :: ys) (by simp)]
      intro hcontra
      have hx : x ≠ [] := h x (by simp)
      cases x with
      | nil => exact hx rfl
      | cons c cs => simp at hcontra

theorem splitCh_icSep (sep : Char) (L : List (List Char))
    (hL : L ≠ []) (h : ∀ x ∈ L, ∀ c ∈ x, c ≠ sep) :
    splitCh sep (icSep sep L) = L := by
  induction L with
  | nil => exact absurd rfl hL
  | cons x t ih =>
    cases t with
    | nil =>
      simp only [icSep]
      exact splitCh_all_ne sep x (h x (by simp))
    | cons y ys =>
      rw [icSep_cons_of_ne sep x (y :: ys) (by simp)]
      rw [splitCh_append_sep sep x _ (h x (by simp))]
      rw [ih (by simp) (fun z hz c hc => h z (by simp [hz]) c hc)]

theorem splitCh_icSep_append_sep (sep : Char) (L : List (List Char))
    (rest : List Char) (hL : L ≠ []) (h : ∀ x ∈ L, ∀ c ∈ x, c ≠ sep) :
    splitCh sep (icSep sep L ++ sep :: rest) = L ++ splitCh sep rest := by
  induction L with
  | nil => exact absurd rfl hL
  | cons x t ih =>
    cases t with
    | nil =>
      simp only [icSep]
      rw [splitCh_append_sep sep x rest (h x (by simp))]
      simp
    | cons y ys =>
      rw [icSep_cons_of_ne sep x (y :: ys) (by simp)]
      rw [List.append_assoc, List.cons_append]
      rw [splitCh_append_sep sep x _ (h x (by simp))]
      rw [ih (by simp) (fun z hz c hc => h z (by simp [hz]) c hc)]
      simp

theorem splitCh_cons_sep (sep : Char) (rest : List Char) :
    splitCh sep (sep :: rest) = [] :: splitCh sep rest := by
  simp only [splitCh]
  cases hs : splitCh sep rest with
  | nil => exact absurd hs (splitCh_ne_nil sep rest)
  | cons p ps => simp

theorem goodSegB_spec {s : String} (h : goodSegB s = true) :
    s.data ≠ [] ∧ (∀ c ∈ s.data, c ≠ '/') ∧
      s.data ≠ ['.'] ∧ s.data ≠ ['.', '.'] := by
  unfold goodSegB at h
  simp only [Bool.and_eq_true, decide_eq_true_eq, List.all_eq_true,
    ne_eq] at h
  obtain ⟨⟨⟨h1, h2⟩, h3⟩, h4⟩ := h
  refine ⟨?_, ?_, ?_, ?_⟩
  · intro hd; exact h1 (String.ext hd)
  · intro c hc
    have := h2 c hc
    simpa using this
  · intro hd; exact h3 (String.ext hd)
  · intro hd; exact h4 (String.ext hd)

theorem foldl_normStep_app (ab : Bool) (acc : List (List Char))
    (segs : List (List Char))
    (h : ∀ x ∈ segs, x ≠ ['.'] ∧ x ≠ ['.', '.']) :
    segs.foldl (normStep ab) acc = acc ++ segs := by
  induction segs generalizing acc with
  | nil => simp
  | cons x t ih =>
    have hx := h x (by simp)
    simp only [List.foldl_cons]
    rw [show normStep ab acc x = acc ++ [x] by simp [normStep, hx.1, hx.2]]
    rw [ih _ (fun z hz => h z (by simp [hz]))]
    simp

theorem absOf_data (segs : List String) :
    (absOf segs).data = '/' :: icSep '/' (segs.map String.data) := rfl

theorem icSep_no_last_slash (D : List (List Char)) (hne : D ≠ [])
    (hmem : ∀ x ∈ D, x ≠ [] ∧ ∀ c ∈ x, c ≠ '/') :
    (icSep '/' D).getLast? ≠ some '/' := by
  induction D using List.reverseRecOn with
  | nil => exact absurd rfl hne
  | append_singleton l a ihl =>
    have ha := hmem a (by simp)
    have hbase : a.getLast? ≠ some '/' := by
      intro hlast
      exact ha.2 '/' (List.mem_of_mem_getLast? hlast) rfl
    cases l with
    | nil => simpa [icSep] using hbase
    | cons y ys =>
      rw [icSep_append '/' (y :: ys) [a] (by simp) (by simp)]
      rw [show icSep '/' [a] = a from rfl]
      rw [@List.getLast?_append_of_ne_nil _ _ ('/' :: a) (by simp)]
      rw [show ('/' :: a) = ['/'] ++ a from rfl]
      rw [@List.getLast?_append_of_ne_nil _ _ a ha.1]
      exact hbase

theorem pathNormalize_canon (segs : List String) (hne : segs ≠ [])
    (h : ∀ s ∈ segs, goodSegB s = true) :
    pathNormalize (absOf segs) = absOf segs := by
  have hD : ∀ x ∈ segs.map String.data,
      x ≠ [] ∧ (∀ c ∈ x, c ≠ '/') ∧ x ≠ ['.'] ∧ x ≠ ['.', '.'] := by
    intro x hx
    obtain ⟨s, hs, rfl⟩ := List.mem_map.mp hx
    exact goodSegB_spec (h s hs)
  have hDne : segs.map String.data ≠ [] := by simpa using hne
  have hpne : absOf segs ≠ "" := by
    intro hcontra
    have := congrArg String.data hcontra
    rw [absOf_data] at this
    simp at this
  have hsplit : splitCh '/' (absOf segs).data =
      [] :: segs.map String.data := by
    rw [absOf_data, splitCh_cons_sep,
      splitCh_icSep '/' _ hDne (fun x hx => (hD x hx).2.1)]
  have hfilt : (splitCh '/' (absOf segs).data).filter (· ≠ []) =
      segs.map String.data := by
    rw [hsplit, List.filter_cons_of_neg (by simp)]
    exact List.filter_eq_self.mpr (fun a ha => by simp [(hD a ha).1])
  have hfold : ∀ ab : Bool,
      (segs.map String.data).foldl (normStep ab) [] = segs.map String.data :=
    fun ab => by
      rw [foldl_normStep_app ab [] _
        (fun x hx => ⟨(hD x hx).2.2.1, (hD x hx).2.2.2⟩)]
      simp
  have hbody : icSep '/' (segs.map String.data) ≠ [] :=
    icSep_ne_nil '/' _ hDne (fun x hx => (hD x hx).1)
  have hhead : (absOf segs).data.head? = some '/' := by
    rw [absOf_data]; rfl
  have htrail : ¬ ((absOf segs).data.getLast? = some '/') := by
    rw [absOf_data]
    have hlast := icSep_no_last_slash (segs.map String.data) hDne
      (fun x hx => ⟨(hD x hx).1, (hD x hx).2.1⟩)
    rw [show ('/' :: icSep '/' (segs.map String.data)) =
      ['/'] ++ icSep '/' (segs.map String.data) from rfl]
    rw [@List.getLast?_append_of_ne_nil _ _ (icSep '/' (segs.map String.data)) hbody]
    exact hlast
  rw [pathNormalize]
  rw [if_neg hpne]
  simp only [hfilt, hfold, hhead, htrail, if_false, if_neg hbody]
  apply String.ext
  simp [absOf_data]

theorem dropWhile_cons_neg {α} (p : α → Bool) (a : α) (l : List α)
    (h : p a = false) : (a :: l).dropWhile p = a :: l := by
  simp [List.dropWhile, h]

theorem pathBasename_canon (segs : List String) (x : String)
    (hx : goodSegB x = true) (h : ∀ s ∈ segs, goodSegB s = true) :
    pathBasename (absOf (segs ++ [x])) = x := by
  have hxs := goodSegB_spec hx
  have hxrevne : x.data.reverse ≠ [] := by simpa using hxs.1
  have hxrevall : ∀ c ∈ x.data.reverse, c ≠ '/' := by
    intro c hc; exact hxs.2.1 c (List.mem_reverse.mp hc)
  have key : ∀ R : List Char,
      pathBasename ⟨List.reverse (x.data.reverse ++ '/' :: R)⟩ = x := by
    intro R
    unfold pathBasename
    apply String.ext
    simp only [List.reverse_reverse]
    rw [dropWhile_append_head _ _ _ hxrevne (fun c hc => by simp [hxrevall c hc])]
    rw [takeWhile_append_all _ _ _ (fun c hc => by simp [hxrevall c hc])]
    rw [takeWhile_cons_neg _ _ _ (by simp)]
    simp
  cases segs with
  | nil =>
    have hshape : absOf ([] ++ [x]) =
        ⟨List.reverse (x.data.reverse ++ '/' :: [])⟩ := by
      apply String.ext; simp [absOf_data, icSep]
    rw [hshape, key]
  | cons s t =>
    have hshape : absOf ((s :: t) ++ [x]) =
        ⟨List.reverse (x.data.reverse ++ '/' ::
          ((icSep '/' ((s :: t).map String.data)).reverse ++ ['/']))⟩ := by
      apply String.ext
      simp only [absOf_data, List.map_append]
      rw [icSep_append '/' _ _ (by simp) (by simp)]
      simp [icSep]
    rw [hshape, key]

theorem pathDirname_canon (segs : List String) (x : String)
    (hx : goodSegB x = true) (h : ∀ s ∈ segs, goodSegB s = true) :
    pathDirname (absOf (segs ++ [x])) = absOf segs := by
  have hxs := goodSegB_spec hx
  have hxrevne : x.data.reverse ≠ [] := by simpa using hxs.1
  have hxrevall : ∀ c ∈ x.data.reverse, c ≠ '/' := by
    intro c hc; exact hxs.2.1 c (List.mem_reverse.mp hc)
  have hpne : absOf (segs ++ [x]) ≠ "" := by
    intro hcontra
    have := congrArg String.data hcontra
    rw [absOf_data] at this
    simp at this
  have hhead : (absOf (segs ++ [x])).data.head? = some '/' := by
    rw [absOf_data]; rfl
  cases segs with
  | nil =>
    have hshape : (absOf ([] ++ [x])).data = '/' :: x.data := by
      simp [absOf_data, icSep]
    rw [pathDirname, if_neg hpne]
    simp only [hshape]
    rw [show ('/' :: x.data).reverse = x.data.reverse ++ '/' :: [] by simp]
    rw [dropWhile_append_head _ _ _ hxrevne (fun c hc => by simp [hxrevall c hc])]
    rw [dropWhile_append_all _ _ _ (fun c hc => by simp [hxrevall c hc])]
    rw [show List.dropWhile (fun c => decide (c ≠ '/')) ['/'] = ['/'] from
      dropWhile_cons_neg _ _ _ (by simp)]
    simp [absOf, icSep]
  | cons s t =>
    have hD : (s :: t).map String.data ≠ [] := by simp
    have hbody : icSep '/' ((s :: t).map String.data) ≠ [] := by
      apply icSep_ne_nil _ _ hD
      intro z hz
      obtain ⟨w, hw, rfl⟩ := List.mem_map.mp hz
      exact (goodSegB_spec (h w hw)).1
    have hshape : (absOf ((s :: t) ++ [x])).data.reverse =
        x.data.reverse ++ '/' ::
          ((icSep '/' ((s :: t).map String.data)).reverse ++ ['/']) := by
      simp only [absOf_data, List.map_append]
      rw [icSep_append '/' _ _ (by simp) (by simp)]
      simp [icSep]
    rw [pathDirname, if_neg hpne]
    simp only [hshape, hhead]
    rw [dropWhile_append_head _ _ _ hxrevne (fun c hc => by simp [hxrevall c hc])]
    rw [dropWhile_append_all _ _ _ (fun c hc => by simp [hxrevall c hc])]
    rw [show List.dropWhile (fun c => decide (c ≠ '/'))
        ('/' :: ((icSep '/' ((s :: t).map String.data)).reverse ++ ['/'])) =
        '/' :: ((icSep '/' ((s :: t).map String.data)).reverse ++ ['/']) from
      dropWhile_cons_neg _ _ _ (by simp)]
    have hlen : ¬ ('/' :: ((icSep '/' ((s :: t).map String.data)).reverse ++
        ['/'])).length ≤ 1 := by
      simp only [List.length_cons, List.length_append, List.length_reverse,
        List.length_singleton]
      omega
    rw [if_neg hlen]
    have hlen2 : ¬ ((absOf (s :: t)).data.head? = some '/' ∧
        ('/' :: ((icSep '/' ((s :: t).map String.data)).reverse ++
          ['/'])).length = 2) := by
      intro hcontra
      have := hcontra.2
      simp only [List.length_cons, List.length_append, List.length_reverse,
        List.length_singleton] at this
      have hb := List.length_pos.mpr hbody
      omega
    have hne2 : ¬ (True ∧
        ('/' :: ((icSep '/' ((s :: t).map String.data)).reverse ++
          ['/'])).length = 2) := by
      intro hcontra
      have := hcontra.2
      simp only [List.length_cons, List.length_append, List.length_reverse,
        List.length_singleton] at this
      have hb := List.length_pos.mpr hbody
      omega
    rw [if_neg hne2]
    apply String.ext
    simp [absOf_data]

theorem pathNormalize_dslash (qs : List String) (hne : qs ≠ [])
    (h : ∀ s ∈ qs, goodSegB s = true) :
    pathNormalize ⟨'/' :: '/' :: icSep '/' (qs.map String.data)⟩ = absOf qs := by
  have hD : ∀ x ∈ qs.map String.data,
      x ≠ [] ∧ (∀ c ∈ x, c ≠ '/') ∧ x ≠ ['.'] ∧ x ≠ ['.', '.'] := by
    intro x hx
    obtain ⟨s, hs, rfl⟩ := List.mem_map.mp hx
    exact goodSegB_spec (h s hs)
  have hDne : qs.map String.data ≠ [] := by simpa using hne
  have hbody : icSep '/' (qs.map String.data) ≠ [] :=
    icSep_ne_nil '/' _ hDne (fun x hx => (hD x hx).1)
  have hpne : (⟨'/' :: '/' :: icSep '/' (qs.map String.data)⟩ : String) ≠ "" := by
    intro hcontra
    have := congrArg String.data hcontra
    simp at this
  have hsplit : splitCh '/' ('/' :: '/' :: icSep '/' (qs.map String.data)) =
      [] :: [] :: qs.map String.data := by
    rw [splitCh_cons_sep, splitCh_cons_sep,
      splitCh_icSep '/' _ hDne (fun x hx => (hD x hx).2.1)]
  have hfilt : (splitCh '/'
      ('/' :: '/' :: icSep '/' (qs.map String.data))).filter (· ≠ []) =
      qs.map String.data := by
    rw [hsplit, List.filter_cons_of_neg (by simp),
      List.filter_cons_of_neg (by simp)]
    exact List.filter_eq_self.mpr (fun a ha => by simp [(hD a ha).1])
  have hfold : ∀ ab : Bool,
      (qs.map String.data).foldl (normStep ab) [] = qs.map String.data :=
    fun ab => by
      rw [foldl_normStep_app ab [] _
        (fun x hx => ⟨(hD x hx).2.2.1, (hD x hx).2.2.2⟩)]
      simp
  have htrail : ¬ (('/' :: '/' ::
      icSep '/' (qs.map String.data)).getLast? = some '/') := by
    have hlast := icSep_no_last_slash (qs.map String.data) hDne
      (fun x hx => ⟨(hD x hx).1, (hD x hx).2.1⟩)
    rw [show ('/' :: '/' :: icSep '/' (qs.map String.data)) =
      ['/', '/'] ++ icSep '/' (qs.map String.data) from rfl]
    rw [@List.getLast?_append_of_ne_nil _ _
      (icSep '/' (qs.map String.data)) hbody]
    exact hlast
  rw [pathNormalize]
  rw [if_neg hpne]
  simp only [hfilt, hfold, htrail, if_false, if_neg hbody]
  apply String.ext
  simp [absOf_data]

theorem pathJoinList_canon (ds qs : List String)
    (hq : qs ≠ []) (hds : ∀ s ∈ ds, goodSegB s = true)
    (hqs : ∀ s ∈ qs, goodSegB s = true) :
    pathJoinList (absOf ds :: qs) = absOf (ds ++ qs) := by
  have habs_ne : absOf ds ≠ "" := by
    intro hcontra
    have := congrArg String.data hcontra
    rw [absOf_data] at this
    simp at this
  have hfilter : (absOf ds :: qs).filter (· ≠ "") = absOf ds :: qs := by
    apply List.filter_eq_self.mpr
    intro a ha
    rcases List.mem_cons.mp ha with rfl | hmem
    · simpa using habs_ne
    · have := (goodSegB_spec (hqs a hmem)).1
      simp only [decide_eq_true_eq]
      intro hc
      exact this (by rw [hc])
  rw [pathJoinList]
  simp only [hfilter]
  rw [if_neg (by simp)]
  have hqDne : qs.map String.data ≠ [] := by simpa using hq
  cases ds with
  | nil =>
    have hmap : ((absOf [] :: qs).map String.data) =
        ['/'] :: qs.map String.data := by
      simp [absOf_data, icSep]
    rw [hmap, icSep_cons_of_ne '/' _ _ hqDne]
    rw [show (['/'] ++ '/' :: icSep '/' (qs.map String.data)) =
      '/' :: '/' :: icSep '/' (qs.map String.data) from rfl]
    rw [pathNormalize_dslash qs hq hqs]
    rfl
  | cons d dt =>
    have hdDne : (d :: dt).map String.data ≠ [] := by simp
    have hmap : ((absOf (d :: dt) :: qs).map String.data) =
        ('/' :: icSep '/' ((d :: dt).map String.data)) :: qs.map String.data := by
      simp [absOf_data]
    rw [hmap, icSep_cons_of_ne '/' _ _ hqDne]
    have hglue : ('/' :: icSep '/' ((d :: dt).map String.data)) ++
        '/' :: icSep '/' (qs.map String.data) =
        '/' :: icSep '/' (((d :: dt) ++ qs).map String.data) := by
      rw [List.map_append, icSep_append '/' _ _ hdDne hqDne]
      simp
    rw [hglue]
    rw [show (⟨'/' :: icSep '/' (((d :: dt) ++ qs).map String.data)⟩ : String) =
      absOf ((d :: dt) ++ qs) from rfl]
    exact pathNormalize_canon ((d :: dt) ++ qs) (by simp)
      (fun s hs => by
        rcases List.mem_append.mp hs with hm | hm
        · exact hds s hm
        · exact hqs s hm)

theorem icSep_cons_head (segs : List String) (hne : segs ≠ [])
    (h : ∀ s ∈ segs, goodSegB s = true) :
    ∃ c cs, icSep '/' (segs.map String.data) = c :: cs ∧ c ≠ '/' := by
  cases segs with
  | nil => exact absurd rfl hne
  | cons s t =>
    have hs := goodSegB_spec (h s (by simp))
    cases hsd : s.data with
    | nil => exact absurd hsd hs.1
    | cons c cs' =>
      have hc : c ≠ '/' := hs.2.1 c (by rw [hsd]; simp)
      cases t with
      | nil => exact ⟨c, cs', by simp [icSep, hsd], hc⟩
      | cons y ys =>
        refine ⟨c, cs' ++ '/' :: icSep '/' ((y :: ys).map String.data), ?_, hc⟩
        rw [List.map_cons, icSep_cons_of_ne '/' _ _ (by simp), hsd]
        simp

theorem uriFrom_absOf (scheme a : String) (segs : List String)
    (hne : segs ≠ []) (h : ∀ s ∈ segs, goodSegB s = true) :
    uriFrom scheme a (absOf segs) = some ⟨scheme, a, absOf segs, "", ""⟩ := by
  obtain ⟨c, cs, hic, hc⟩ := icSep_cons_head segs hne h
  have hdata : (absOf segs).data = '/' :: c :: cs := by
    rw [absOf_data, hic]
  rw [uriFrom]
  rw [if_neg (by
    intro hcontra
    apply hcontra.2.2
    rw [hdata]
    rfl)]
  rw [if_neg (by
    intro hcontra
    have := hcontra.2.2
    rw [hdata] at this
    simp at this
    exact hc this)]

theorem absOf_length_gt_one (segs : List String) (hne : segs ≠ [])
    (h : ∀ s ∈ segs, goodSegB s = true) : 1 < (absOf segs).length := by
  obtain ⟨c, cs, hic, hc⟩ := icSep_cons_head segs hne h
  have hdata : (absOf segs).data = '/' :: c :: cs := by
    rw [absOf_data, hic]
  show 1 < (absOf segs).data.length
  rw [hdata]
  simp

theorem fsPath_file_empty (a : String) (p : String) (ha : a = "") :
    fsPath ⟨"file", a, p, "", ""⟩ = p := by
  rw [fsPath]
  rw [if_neg (by intro hcontra; exact hcontra.1 ha)]

theorem fsPath_file_auth (a : String) (segs : List String) (ha : a ≠ "")
    (hne : segs ≠ []) (h : ∀ s ∈ segs, goodSegB s = true) :
    fsPath ⟨"file", a, absOf segs, "", ""⟩ = "//" ++ a ++ absOf segs := by
  rw [fsPath]
  rw [if_pos ⟨ha, absOf_length_gt_one segs hne h, rfl⟩]

theorem uriFile_cons_cons (rest : List Char) (p : String)
    (hdata : p.data = '/' :: '/' :: rest) :
    uriFile p = ⟨"file", ⟨rest.takeWhile (· ≠ '/')⟩,
      if rest.dropWhile (· ≠ '/') = [] then "/"
        else ⟨rest.dropWhile (· ≠ '/')⟩, "", ""⟩ := by
  unfold uriFile
  rw [hdata]
  rfl

theorem uriFile_not_dslash (p : String) (c : Char) (cs : List Char)
    (hdata : p.data = '/' :: c :: cs) (hc : c ≠ '/') :
    uriFile p = ⟨"file", "", p, "", ""⟩ := by
  unfold uriFile
  rw [hdata]
  split
  · rename_i rest heq
    injection heq with h1 h2
    injection h2 with h3 h4
    exact absurd h3 hc
  · rfl

theorem uriFile_absOf (segs : List String) (hne : segs ≠ [])
    (h : ∀ s ∈ segs, goodSegB s = true) :
    uriFile (absOf segs) = ⟨"file", "", absOf segs, "", ""⟩ := by
  obtain ⟨c, cs, hic, hc⟩ := icSep_cons_head segs hne h
  exact uriFile_not_dslash _ c cs (by rw [absOf_data, hic]) hc

theorem uriFile_unc (a : String) (segs : List String)
    (haslash : ∀ c ∈ a.data, c ≠ '/') :
    uriFile ("//" ++ a ++ absOf segs) = ⟨"file", a, absOf segs, "", ""⟩ := by
  have hdata : ("//" ++ a ++ absOf segs).data =
      '/' :: '/' :: (a.data ++ '/' :: icSep '/' (segs.map String.data)) := by
    show ("//".data ++ a.data) ++ (absOf segs).data = _
    rw [absOf_data]
    simp
  rw [uriFile_cons_cons _ _ hdata]
  have htake : (a.data ++ '/' ::
      icSep '/' (segs.map String.data)).takeWhile (fun c => decide (c ≠ '/')) =
      a.data := by
    rw [takeWhile_append_all _ _ _ (fun c hc => by simp [haslash c hc])]
    rw [takeWhile_cons_neg _ _ _ (by simp)]
    simp
  have hdrop : (a.data ++ '/' ::
      icSep '/' (segs.map String.data)).dropWhile (fun c => decide (c ≠ '/')) =
      '/' :: icSep '/' (segs.map String.data) := by
    rw [dropWhile_append_all _ _ _ (fun c hc => by simp [haslash c hc])]
    exact dropWhile_cons_neg _ _ _ (by simp)
  rw [htake, hdrop]
  rw [if_neg (by simp)]
  rfl

/-- C1: the claim as stated — that `toLocal` and `fromLocal` are mutual
    inverses for EVERY uri meeting the stated validity conditions (scheme,
    empty query/fragment, marker placement) — is false: a trailing slash in
    the path survives the validity checks but is dropped by the round trip.
    At local path `/a/b/` the round trip returns `/a/b`, and at virtual path
    `/a/staged/b/` it returns the uri with path `/a/staged/b`. -/
theorem c1_counterexample :
    (ValidLocal ⟨"file", "", "/a/b/", "", ""⟩ ∧
      (fromLocalPath ⟨"file", "", "/a/b/", "", ""⟩).bind toLocalPath ≠
        some (fsPath ⟨"file", "", "/a/b/", "", ""⟩)) ∧
    (ValidVirtual ⟨SCHEME, "", "/a/staged/b/", "", ""⟩ ∧
      (toLocalPath ⟨SCHEME, "", "/a/staged/b/", "", ""⟩).map
          (fun p => fromLocalPath (uriFile p)) ≠
        some (some ⟨SCHEME, "", "/a/staged/b/", "", ""⟩)) := by
  decide

/-- C1 (amended): on canonically-shaped paths — absolute, built from
    nonempty slash-free non-dot segments, no trailing slash — the two
    translators are mutual inverses: `toLocal (fromLocal u)` is exactly
    `u`'s local filesystem path, and rebuilding a file uri from
    `toLocal v` and applying `fromLocal` returns `v` when `v` carries the
    marker segment immediately before its final component. -/
theorem c1_inverse_on_canonical_paths (a : String) (ds : List String) (b : String)
    (ha : ∀ c ∈ a.data, c ≠ '/')
    (hds : ∀ s ∈ ds, goodSegB s = true) (hb : goodSegB b = true) :
    ((fromLocalPath ⟨"file", a, absOf (ds ++ [b]), "", ""⟩).bind toLocalPath =
      some (fsPath ⟨"file", a, absOf (ds ++ [b]), "", ""⟩)) ∧
    ((toLocalPath ⟨SCHEME, a, absOf (ds ++ [PREFIX_DIR, b]), "", ""⟩).map
        (fun p => fromLocalPath (uriFile p)) =
      some (some ⟨SCHEME, a, absOf (ds ++ [PREFIX_DIR, b]), "", ""⟩)) := by
  have hPD : goodSegB PREFIX_DIR = true := by decide
  have hgood1 : ∀ s ∈ ds ++ [b], goodSegB s = true := by
    intro s hs
    rcases List.mem_append.mp hs with hm | hm
    · exact hds s hm
    · simp at hm; rw [hm]; exact hb
  have hgoodDP : ∀ s ∈ ds ++ [PREFIX_DIR], goodSegB s = true := by
    intro s hs
    rcases List.mem_append.mp hs with hm | hm
    · exact hds s hm
    · simp at hm; rw [hm]; exact hPD
  have hgood2 : ∀ s ∈ ds ++ [PREFIX_DIR, b], goodSegB s = true := by
    intro s hs
    simp only [List.mem_append, List.mem_cons, List.mem_singleton,
      List.not_mem_nil, or_false] at hs
    rcases hs with hm | hm | hm
    · exact hds s hm
    · rw [hm]; exact hPD
    · rw [hm]; exact hb
  have hsplitlist : ds ++ [PREFIX_DIR, b] = (ds ++ [PREFIX_DIR]) ++ [b] := by
    simp
  have hFrom : fromLocalPath ⟨"file", a, absOf (ds ++ [b]), "", ""⟩ =
      some ⟨SCHEME, a, absOf (ds ++ [PREFIX_DIR, b]), "", ""⟩ := by
    rw [fromLocalPath]
    simp only [ne_eq, not_true_eq_false, if_false, ite_false, if_neg]
    rw [pathDirname_canon ds b hb hds, pathBasename_canon ds b hb hds]
    rw [show pathJoin3 (absOf ds) PREFIX_DIR b =
      pathJoinList (absOf ds :: [PREFIX_DIR, b]) from rfl]
    rw [pathJoinList_canon ds [PREFIX_DIR, b] (by simp) hds
      (by intro s hs
          simp only [List.mem_cons, List.mem_singleton, List.not_mem_nil,
            or_false] at hs
          rcases hs with hm | hm
          · rw [hm]; exact hPD
          · rw [hm]; exact hb)]
    exact uriFrom_absOf SCHEME a _ (by simp) hgood2
  have hTo : toLocalPath ⟨SCHEME, a, absOf (ds ++ [PREFIX_DIR, b]), "", ""⟩ =
      some (fsPath ⟨"file", a, absOf (ds ++ [b]), "", ""⟩) := by
    rw [toLocalPath]
    rw [hsplitlist]
    rw [pathDirname_canon (ds ++ [PREFIX_DIR]) b hb hgoodDP]
    rw [pathBasename_canon ds PREFIX_DIR hPD hds]
    rw [pathDirname_canon ds PREFIX_DIR hPD hds]
    rw [pathBasename_canon (ds ++ [PREFIX_DIR]) b hb hgoodDP]
    simp only [ne_eq, not_true_eq_false, if_false, ite_false]
    rw [show pathJoin2 (absOf ds) b = pathJoinList (absOf ds :: [b]) from rfl]
    rw [pathJoinList_canon ds [b] (by simp) hds
      (by intro s hs; simp at hs; rw [hs]; exact hb)]
    rw [uriFrom_absOf "file" a _ (by simp) hgood1]
    rfl
  have hFile : uriFile (fsPath ⟨"file", a, absOf (ds ++ [b]), "", ""⟩) =
      ⟨"file", a, absOf (ds ++ [b]), "", ""⟩ := by
    by_cases haem : a = ""
    · rw [fsPath_file_empty a _ haem]
      rw [uriFile_absOf (ds ++ [b]) (by simp) hgood1]
      rw [haem]
    · rw [fsPath_file_auth a (ds ++ [b]) haem (by simp) hgood1]
      exact uriFile_unc a (ds ++ [b]) ha
  have hbind : ∀ (v : Uri), (some v).bind toLocalPath = toLocalPath v :=
    fun v => rfl
  have hmap : ∀ (p : String),
      (some p).map (fun q => fromLocalPath (uriFile q)) =
        some (fromLocalPath (uriFile p)) := fun p => rfl
  constructor
  · rw [hFrom, hbind]
    exact hTo
  · rw [hTo, hmap, hFile, hFrom]

/-- Witness for the amended C1 at a concrete input: authority empty, local
    path `/repo/f.txt`, virtual path `/repo/staged/f.txt`. -/
theorem c1_inverse_on_canonical_paths_witness :
    (∀ c ∈ ("" : String).data, c ≠ '/') ∧
    (∀ s ∈ ["repo"], goodSegB s = true) ∧ goodSegB "f.txt" = true ∧
    (((fromLocalPath ⟨"file", "", absOf (["repo"] ++ ["f.txt"]), "", ""⟩).bind
        toLocalPath =
      some (fsPath ⟨"file", "", absOf (["repo"] ++ ["f.txt"]), "", ""⟩)) ∧
    ((toLocalPath
        ⟨SCHEME, "", absOf (["repo"] ++ [PREFIX_DIR, "f.txt"]), "", ""⟩).map
        (fun p => fromLocalPath (uriFile p)) =
      some (some
        ⟨SCHEME, "", absOf (["repo"] ++ [PREFIX_DIR, "f.txt"]), "", ""⟩))) :=
  ⟨by decide, by decide, by decide,
    c1_inverse_on_canonical_paths "" ["repo"] "f.txt" (by decide) (by decide)
      (by decide)⟩

/-- C5: `createDirectory`, `delete`, `rename` and `copy` fail immediately
    with the not-implemented error condition for every input, leave the
    state unchanged, and invoke the oracle zero times. -/
theorem c5_unsupported_ops_fail_without_effect (s : GitState) (u v : Uri)
    (rec ovr : Bool) :
    createDirectory s u = (.error .NotImplemented, s, []) ∧
    delete s u rec = (.error .NotImplemented, s, []) ∧
    rename s u v ovr = (.error .NotImplemented, s, []) ∧
    copy s u v ovr = (.error .NotImplemented, s, []) :=
  ⟨rfl, rfl, rfl, rfl⟩

/-- C10: `writeFile` never reads its `create`/`overwrite` options: any two
    calls differing only in the options produce the identical outcome,
    index state and oracle-call sequence. -/
theorem c10_writeFile_ignores_options (hashFn : Bytes → String)
    (s : GitState) (uri : Uri) (content : Bytes) (o1 o2 : WriteOptions) :
    writeFile hashFn s uri content o1 = writeFile hashFn s uri content o2 :=
  rfl

theorem cleanStrB_spec {s : String} (h : cleanStrB s = true) :
    s.data ≠ [] ∧ ∀ c ∈ s.data, isJsWs c = false ∧ c ≠ '\x00' := by
  unfold cleanStrB at h
  simp only [Bool.and_eq_true, decide_eq_true_eq, List.all_eq_true] at h
  obtain ⟨h1, h2⟩ := h
  refine ⟨fun hd => h1 (String.ext hd), fun c hc => ?_⟩
  have := h2 c hc
  simp only [Bool.and_eq_true, Bool.not_eq_true', decide_eq_true_eq] at this
  exact this

theorem stdoutOf_data (lines : List String) :
    (stdoutOf lines).data = (lines.map (fun l => l.data ++ ['\n'])).flatten :=
  rfl

theorem stdoutOf_flatten_eq (lines : List String) (hne : lines ≠ []) :
    (lines.map (fun l => l.data ++ ['\n'])).flatten =
      icSep '\n' (lines.map String.data) ++ ['\n'] := by
  induction lines with
  | nil => exact absurd rfl hne
  | cons l t ih =>
    cases t with
    | nil => simp [icSep]
    | cons m rest =>
      have hihr := ih (by simp)
      simp only [List.map_cons, List.flatten_cons] at hihr ⊢
      rw [List.append_assoc, hihr]
      rw [icSep_cons_of_ne '\n' l.data (m.data :: List.map String.data rest)
        (by simp)]
      simp

theorem icSep_head_shape (sep : Char) (d : List Char) (t : List (List Char))
    (c : Char) (cs : List Char) (hd : d = c :: cs) :
    ∃ rest, icSep sep (d :: t) = c :: rest := by
  cases t with
  | nil => exact ⟨cs, by simp [icSep, hd]⟩
  | cons y ys =>
    refine ⟨cs ++ sep :: icSep sep (y :: ys), ?_⟩
    rw [icSep_cons_of_ne sep _ _ (by simp), hd]
    simp

theorem icSep_rev_head (sep : Char) (D : List (List Char)) (p : Char → Bool)
    (hne : D ≠ []) (hmem : ∀ x ∈ D, x ≠ [] ∧ ∀ c ∈ x, p c = false) :
    ∃ c rest, (icSep sep D).reverse = c :: rest ∧ p c = false := by
  induction D using List.reverseRecOn with
  | nil => exact absurd rfl hne
  | append_singleton l a ihl =>
    have ha := hmem a (by simp)
    obtain ⟨c, cs, hac⟩ : ∃ c cs, a.reverse = c :: cs := by
      cases har : a.reverse with
      | nil => exact absurd (by simpa using congrArg List.reverse har) ha.1
      | cons c cs => exact ⟨c, cs, rfl⟩
    have hpc : p c = false := by
      apply ha.2
      have : c ∈ a.reverse := by rw [hac]; simp
      exact List.mem_reverse.mp this
    cases l with
    | nil => exact ⟨c, cs, by simpa [icSep] using hac, hpc⟩
    | cons y ys =>
      refine ⟨c, cs ++ sep :: (icSep sep (y :: ys)).reverse, ?_, hpc⟩
      rw [icSep_append sep (y :: ys) [a] (by simp) (by simp)]
      rw [show icSep sep [a] = a from rfl]
      simp [hac]

theorem icSep_fwd_head (sep : Char) (D : List (List Char)) (p : Char → Bool)
    (hne : D ≠ []) (hmem : ∀ x ∈ D, x ≠ [] ∧ ∀ c ∈ x, p c = false) :
    ∃ c rest, icSep sep D = c :: rest ∧ p c = false := by
  cases D with
  | nil => exact absurd rfl hne
  | cons d t =>
    have hd := hmem d (by simp)
    cases hdd : d with
    | nil => exact absurd hdd hd.1
    | cons c cs =>
      obtain ⟨rest, hrest⟩ := icSep_head_shape sep d t c cs hdd
      rw [hdd] at hrest
      refine ⟨c, rest, hrest, hd.2 c (by rw [hdd]; simp)⟩

theorem trim_stdout (lines : List String) (hne : lines ≠ [])
    (h : ∀ l ∈ lines, l.data ≠ [] ∧ ∀ c ∈ l.data, isJsWs c = false) :
    jsTrim (stdoutOf lines) = ⟨icSep '\n' (lines.map String.data)⟩ := by
  have hD : ∀ x ∈ lines.map String.data,
      x ≠ [] ∧ ∀ c ∈ x, isJsWs c = false := by
    intro x hx; obtain ⟨s, hs, rfl⟩ := List.mem_map.mp hx; exact h s hs
  have hDne : lines.map String.data ≠ [] := by simpa using hne
  unfold jsTrim
  apply String.ext
  show (((stdoutOf lines).data.dropWhile isJsWs).reverse.dropWhile
    isJsWs).reverse = icSep '\n' (lines.map String.data)
  rw [show (stdoutOf lines).data =
    icSep '\n' (lines.map String.data) ++ ['\n'] from by
      rw [stdoutOf_data]; exact stdoutOf_flatten_eq lines hne]
  obtain ⟨c0, rest0, hic0, hp0⟩ :=
    icSep_fwd_head '\n' (lines.map String.data) isJsWs hDne hD
  have h1 : (icSep '\n' (lines.map String.data) ++ ['\n']).dropWhile
      isJsWs = icSep '\n' (lines.map String.data) ++ ['\n'] := by
    rw [hic0, List.cons_append]
    exact dropWhile_cons_neg _ _ _ hp0
  rw [h1, List.reverse_append]
  have h2 : (['\n'].reverse ++
      (icSep '\n' (lines.map String.data)).reverse).dropWhile isJsWs =
      ((icSep '\n' (lines.map String.data)).reverse).dropWhile isJsWs := by
    simp [List.dropWhile, isJsWs]
  rw [h2]
  obtain ⟨c1, rest1, hrev1, hp1⟩ :=
    icSep_rev_head '\n' (lines.map String.data) isJsWs hDne hD
  rw [hrev1, dropWhile_cons_neg _ _ _ hp1, ← hrev1]
  simp

theorem trim_stdout_single (m : String) (hm : m.data ≠ [])
    (hws : ∀ c ∈ m.data, isJsWs c = false) :
    jsTrim (stdoutOf [m]) = m := by
  have harg : ∀ l ∈ [m], l.data ≠ [] ∧ ∀ c ∈ l.data, isJsWs c = false := by
    intro l hl
    simp at hl
    rw [hl]
    exact ⟨hm, hws⟩
  rw [trim_stdout [m] (by simp) harg]
  rfl

theorem parse_stdout (lines : List String) (hne : lines ≠ [])
    (h : ∀ l ∈ lines, l.data ≠ [] ∧ ∀ c ∈ l.data, isJsWs c = false) :
    jsSplit '\n' (jsTrim (stdoutOf lines)) = lines := by
  have hD : ∀ x ∈ lines.map String.data,
      x ≠ [] ∧ ∀ c ∈ x, isJsWs c = false := by
    intro x hx; obtain ⟨s, hs, rfl⟩ := List.mem_map.mp hx; exact h s hs
  have hDne : lines.map String.data ≠ [] := by simpa using hne
  rw [trim_stdout lines hne h]
  unfold jsSplit
  show (splitCh '\n' (icSep '\n' (lines.map String.data))).map
    (fun l => (⟨l⟩ : String)) = lines
  rw [splitCh_icSep '\n' _ hDne (fun x hx c hc => by
    intro hceq
    have := (hD x hx).2 c hc
    rw [hceq] at this
    simp [isJsWs] at this)]
  rw [List.map_map]
  rw [show ((fun l => (⟨l⟩ : String)) ∘ String.data) = id from
    funext (fun s => rfl)]
  exact List.map_id lines

theorem parse_stdout_nil : jsSplit '\n' (jsTrim (stdoutOf [])) = [""] := rfl

theorem filter_update (l : List (String × IndexEntry)) (k : String)
    (e : IndexEntry) :
    (l.filter (fun kv => kv.1 ≠ k) ++ [(k, e)]).filter
      (fun kv => kv.1 = k) = [(k, e)] := by
  rw [List.filter_append]
  have h1 : (l.filter (fun kv => decide (kv.1 ≠ k))).filter
      (fun kv => decide (kv.1 = k)) = [] := by
    rw [List.filter_eq_nil_iff]
    intro a ha
    have := List.of_mem_filter ha
    simp at this ⊢
    exact this
  rw [h1]
  simp

/-- C2: read-after-write consistency through the oracle: whenever
    `writeFile(v, bytes)` completes on a state (no concurrent external
    mutation: `readFile` runs on exactly the state `writeFile` produced,
    and the object store is content-addressed, returning for a hash the
    bytes most recently stored under it), `readFile(v)` returns exactly
    `bytes`. -/
theorem c2_read_after_write (hashFn : Bytes → String) (hgood : GoodHash hashFn)
    (s : GitState) (uri : Uri) (content : Bytes) (opts : WriteOptions)
    (s2 : GitState) (calls : List GitCall)
    (hw : writeFile hashFn s uri content opts = (.ok s2, calls)) :
    readFile s2 uri = .ok content := by
  have hclean := cleanStrB_spec (hgood content)
  unfold writeFile at hw
  cases hl : toLocalPath uri with
  | none => rw [hl] at hw; simp at hw
  | some local_path =>
    rw [hl] at hw
    simp only [] at hw
    split at hw
    · simp at hw
    · rename_i mode hmode
      split at hw
      · simp at hw
      · rename_i git_root hroot
        split at hw
        · simp at hw
        · rename_i s2' hupd
          have hs2 : s2' = s2 := by
            injection hw with hw1 hw2
            injection hw1
          subst hs2
          -- extract git_root = s.root
          have hgr : git_root = s.root := by
            unfold getGitRootForFile at hroot
            split at hroot
            · simp at hroot
            · injection hroot with h'
              exact h'.symm
          -- extract s2 shape from updateIndexOp
          unfold updateIndexOp at hupd
          split at hupd
          · injection hupd with h'
            subst h'
            subst hgr
            -- now compute readFile
            simp only [readFile, readFileCore, hl]
            have hls : lsFilesAt
                { root := s.root, index := s.index.filter
                    (fun kv => kv.1 ≠ pathRelative s.root local_path) ++
                    [(pathRelative s.root local_path,
                      ⟨mode, hashFn content, "blob"⟩)]
                  objects := (hashFn content, content) :: s.objects
                  worktree := s.worktree, indexStat := s.indexStat }
                local_path = [⟨mode, hashFn content, "blob"⟩] := by
              unfold lsFilesAt indexKey
              simp only []
              rw [filter_update]
              simp
            rw [hls]
            have hparse : jsSplit '\n' (jsTrim (stdoutOf
                ([(⟨mode, hashFn content, "blob"⟩ : IndexEntry)].map
                  (fun e => e.hash)))) = [hashFn content] := by
              simp only [List.map_cons, List.map_nil]
              exact parse_stdout [hashFn content] (by simp) (by
                intro l hl'
                simp at hl'
                rw [hl']
                exact ⟨hclean.1, fun c hc => (hclean.2 c hc).1⟩)
            rw [hparse]
            have hne : ¬ ([hashFn content].headD "" = "") := by
              simp only [List.headD_cons]
              exact fun hc => hclean.1 (by rw [hc])
            rw [if_neg hne]
            simp only [List.headD_cons, List.length_cons, List.length_nil]
            have hfind : objLookup
                { root := s.root, index := s.index.filter
                    (fun kv => kv.1 ≠ pathRelative s.root local_path) ++
                    [(pathRelative s.root local_path,
                      ⟨mode, hashFn content, "blob"⟩)]
                  objects := (hashFn content, content) :: s.objects
                  worktree := s.worktree, indexStat := s.indexStat }
                (hashFn content) = some content := by
              unfold objLookup
              simp [List.find?]
            rw [hfind]
          · simp at hupd

/-- C3: on a path with no staged index entry, `readFile` returns the raw
    working-tree bytes and `stat` the working-tree type/ctime/mtime/size;
    when the working-tree file is absent as well (ENOENT), both fail with
    the `FileNotFound` condition. -/
theorem c3_worktree_fallback (s : GitState) (uri : Uri) (local_path : String)
    (hlocal : toLocalPath uri = some local_path)
    (hnone : lsFilesAt s local_path = []) :
    (wtLookup s local_path = none →
        readFile s uri = .error .FileNotFound ∧
        stat s uri = .error .FileNotFound) ∧
    (∀ st content, wtLookup s local_path = some (st, content) →
        st.kind = .file →
        readFile s uri = .ok content ∧
        stat s uri = .ok ⟨.File, st.ctimeMs, st.mtimeMs, st.size⟩) := by
  constructor
  · intro hwt
    constructor
    · simp only [readFile, readFileCore, hlocal, hnone, List.map_nil,
        parse_stdout_nil, hwt]
      rfl
    · simp only [stat, statCore, hlocal, hnone, List.map_nil,
        parse_stdout_nil, hwt]
      rfl
  · intro st content hwt hkind
    constructor
    · simp only [readFile, readFileCore, hlocal, hnone, List.map_nil,
        parse_stdout_nil, hwt, hkind]
      rfl
    · simp only [stat, statCore, hlocal, hnone, List.map_nil,
        parse_stdout_nil, hwt, hkind]
      rfl

/-- Witness for C3 at a concrete repository state: `/repo/g.txt` untracked
    but present in the working tree. -/
theorem c3_worktree_fallback_witness :
    (toLocalPath ⟨SCHEME, "", "/repo/staged/g.txt", "", ""⟩ =
      some "/repo/g.txt") ∧
    (lsFilesAt
      ⟨"/repo", [("f.txt", ⟨"100644", "h0", "blob"⟩)], [("h0", [1])],
        [("/repo/g.txt", ⟨.file, 10, 20, 6, 33188⟩, [1, 2, 3])],
        ⟨.file, 0, 999, 100, 33188⟩⟩ "/repo/g.txt" = []) ∧
    (readFile
      ⟨"/repo", [("f.txt", ⟨"100644", "h0", "blob"⟩)], [("h0", [1])],
        [("/repo/g.txt", ⟨.file, 10, 20, 6, 33188⟩, [1, 2, 3])],
        ⟨.file, 0, 999, 100, 33188⟩⟩
      ⟨SCHEME, "", "/repo/staged/g.txt", "", ""⟩ = .ok [1, 2, 3] ∧
    stat
      ⟨"/repo", [("f.txt", ⟨"100644", "h0", "blob"⟩)], [("h0", [1])],
        [("/repo/g.txt", ⟨.file, 10, 20, 6, 33188⟩, [1, 2, 3])],
        ⟨.file, 0, 999, 100, 33188⟩⟩
      ⟨SCHEME, "", "/repo/staged/g.txt", "", ""⟩ =
        .ok ⟨.File, 10, 20, 6⟩) :=
  ⟨by decide, by decide,
    (c3_worktree_fallback _ _ "/repo/g.txt" (by decide) (by decide)).2
      ⟨.file, 10, 20, 6, 33188⟩ [1, 2, 3] (by decide) (by decide)⟩

/-- Witness for C2 at a concrete repository state and a constant
    well-formed hash function. -/
theorem c2_read_after_write_witness :
    GoodHash (fun _ => "abcd") ∧
    (∃ s2 calls,
      writeFile (fun _ => "abcd")
        ⟨"/repo", [("f.txt", ⟨"100644", "h0", "blob"⟩)], [("h0", [1])],
          [("/repo/f.txt", ⟨.file, 10, 20, 6, 33188⟩, [1, 2, 3])],
          ⟨.file, 0, 999, 100, 33188⟩⟩
        ⟨SCHEME, "", "/repo/staged/f.txt", "", ""⟩ [9, 9] ⟨true, true⟩ =
        (.ok s2, calls) ∧
      readFile s2 ⟨SCHEME, "", "/repo/staged/f.txt", "", ""⟩ =
        .ok [9, 9]) := by
  constructor
  · intro b
    show cleanStrB "abcd" = true
    decide
  · refine ⟨_, _, rfl, ?_⟩
    exact c2_read_after_write (fun _ => "abcd")
      (fun b => (by decide : cleanStrB "abcd" = true))
      ⟨"/repo", [("f.txt", ⟨"100644", "h0", "blob"⟩)], [("h0", [1])],
        [("/repo/f.txt", ⟨.file, 10, 20, 6, 33188⟩, [1, 2, 3])],
        ⟨.file, 0, 999, 100, 33188⟩⟩
      ⟨SCHEME, "", "/repo/staged/f.txt", "", ""⟩ [9, 9] ⟨true, true⟩
      _ _ rfl

theorem lsFilesAt_set_objects (s : GitState) (o : List (String × Bytes))
    (lp : String) : lsFilesAt { s with objects := o } lp = lsFilesAt s lp :=
  rfl

theorem wtLookup_set_objects (s : GitState) (o : List (String × Bytes))
    (lp : String) : wtLookup { s with objects := o } lp = wtLookup s lp :=
  rfl

theorem getGitRoot_of_wt (s : GitState) (lp : String) (w : Stats × Bytes)
    (h : wtLookup s lp = some w) : getGitRootForFile s lp = .ok s.root := by
  unfold getGitRootForFile
  rw [h]

theorem any_of_lsFilesAt (s : GitState) (lp : String) (e : IndexEntry)
    (rest : List IndexEntry) (h : lsFilesAt s lp = e :: rest) :
    s.index.any (fun kv => decide (kv.1 = indexKey s lp)) = true := by
  unfold lsFilesAt at h
  have hne : s.index.filter (fun kv => decide (kv.1 = indexKey s lp)) ≠ [] := by
    intro hnil
    rw [hnil] at h
    simp at h
  rw [List.any_eq_true]
  obtain ⟨x, hx⟩ := List.exists_mem_of_ne_nil _ hne
  have hx' := List.mem_filter.mp hx
  exact ⟨x, hx'.1, hx'.2⟩

/-- C6: when `writeFile` completes, the recorded mode and the oracle-call
    variant depend on whether the path was already staged: a single existing
    entry's mode is reused with the plain `update-index` variant, while an
    untracked path records the working-tree file's permission bits (octal)
    and uses the `--add` variant. -/
theorem c6_mode_selection (hashFn : Bytes → String) (s : GitState) (uri : Uri)
    (local_path : String) (content : Bytes) (opts : WriteOptions)
    (s2 : GitState) (calls : List GitCall)
    (hlocal : toLocalPath uri = some local_path)
    (hw : writeFile hashFn s uri content opts = (.ok s2, calls)) :
    (∀ e, lsFilesAt s local_path = [e] → e.mode.data ≠ [] →
      (∀ c ∈ e.mode.data, isJsWs c = false) →
      calls = [.hashObject content, .lsFiles "%(objectmode)" local_path,
        .revParse, .updateIndex false e.mode (hashFn content)
          (indexKey s local_path)] ∧
      lsFilesAt s2 local_path = [⟨e.mode, hashFn content, "blob"⟩]) ∧
    (lsFilesAt s local_path = [] →
      ∀ st wtc, wtLookup s local_path = some (st, wtc) →
      calls = [.hashObject content, .lsFiles "%(objectmode)" local_path,
        .revParse, .updateIndex true (octalRepr st.mode) (hashFn content)
          (indexKey s local_path)] ∧
      lsFilesAt s2 local_path = [⟨octalRepr st.mode, hashFn content, "blob"⟩]) := by
  unfold writeFile at hw
  rw [hlocal] at hw
  simp only [] at hw
  constructor
  · intro e hls hmne hmws
    rw [lsFilesAt_set_objects, hls] at hw
    simp only [List.map_cons, List.map_nil] at hw
    simp only [trim_stdout_single e.mode hmne hmws] at hw
    have hmodeneq : ¬ (e.mode = "") := fun hc => hmne (by rw [hc])
    rw [if_pos hmodeneq] at hw
    simp only [] at hw
    cases hwt : wtLookup s local_path with
    | none =>
      unfold getGitRootForFile at hw
      rw [wtLookup_set_objects, hwt] at hw
      simp at hw
    | some w =>
      rw [getGitRoot_of_wt _ _ w (by rw [wtLookup_set_objects]; exact hwt)]
        at hw
      simp only [] at hw
      unfold updateIndexOp at hw
      split at hw
      · simp at hw
      · rename_i s2x heq
        injection hw with hw1 hw2
        injection hw1 with hw1
        subst hw1
        split at heq
        · injection heq with heq1
          subst heq1
          rw [show decide (e.mode = "") = false from
            decide_eq_false hmodeneq] at hw2
          constructor
          · rw [← hw2]
            rfl
          · unfold lsFilesAt indexKey
            simp only []
            rw [filter_update]
            simp
        · exact absurd heq (by simp)
  · intro hnil st wtc hwt
    rw [lsFilesAt_set_objects, hnil] at hw
    simp only [List.map_nil] at hw
    simp only [show jsTrim (stdoutOf []) = "" from rfl] at hw
    rw [if_neg (by simp)] at hw
    rw [wtLookup_set_objects, hwt] at hw
    simp only [] at hw
    unfold getGitRootForFile at hw
    simp only [wtLookup_set_objects, hwt] at hw
    unfold updateIndexOp at hw
    split at hw
    · simp at hw
    · rename_i s2x heq
      injection hw with hw1 hw2
      injection hw1 with hw1
      subst hw1
      split at heq
      · injection heq with heq1
        subst heq1
        constructor
        · rw [← hw2]
          rfl
        · unfold lsFilesAt indexKey
          simp only []
          rw [filter_update]
          simp
      · exact absurd heq (by simp)

/-- Witness for C6 at a concrete tracked path: the staged mode `100644` is
    reused and the plain (no `--add`) oracle variant is invoked. -/
theorem c6_mode_selection_witness :
    (toLocalPath ⟨SCHEME, "", "/repo/staged/f.txt", "", ""⟩ =
      some "/repo/f.txt") ∧
    (lsFilesAt
      ⟨"/repo", [("f.txt", ⟨"100644", "h0", "blob"⟩)], [("h0", [1])],
        [("/repo/f.txt", ⟨.file, 10, 20, 6, 33188⟩, [1, 2, 3])],
        ⟨.file, 0, 999, 100, 33188⟩⟩ "/repo/f.txt" =
      [⟨"100644", "h0", "blob"⟩]) ∧
    ∃ s2 calls,
      writeFile (fun _ => "abcd")
        ⟨"/repo", [("f.txt", ⟨"100644", "h0", "blob"⟩)], [("h0", [1])],
          [("/repo/f.txt", ⟨.file, 10, 20, 6, 33188⟩, [1, 2, 3])],
          ⟨.file, 0, 999, 100, 33188⟩⟩
        ⟨SCHEME, "", "/repo/staged/f.txt", "", ""⟩ [9, 9] ⟨true, true⟩ =
        (.ok s2, calls) ∧
      calls = [.hashObject [9, 9], .lsFiles "%(objectmode)" "/repo/f.txt",
        .revParse, .updateIndex false "100644" "abcd"
          (indexKey
            ⟨"/repo", [("f.txt", ⟨"100644", "h0", "blob"⟩)], [("h0", [1])],
              [("/repo/f.txt", ⟨.file, 10, 20, 6, 33188⟩, [1, 2, 3])],
              ⟨.file, 0, 999, 100, 33188⟩⟩ "/repo/f.txt")] ∧
      lsFilesAt s2 "/repo/f.txt" = [⟨"100644", "abcd", "blob"⟩] := by
  refine ⟨by decide, by decide, _, _, rfl, ?_⟩
  exact (c6_mode_selection (fun _ => "abcd")
    ⟨"/repo", [("f.txt", ⟨"100644", "h0", "blob"⟩)], [("h0", [1])],
      [("/repo/f.txt", ⟨.file, 10, 20, 6, 33188⟩, [1, 2, 3])],
      ⟨.file, 0, 999, 100, 33188⟩⟩
    ⟨SCHEME, "", "/repo/staged/f.txt", "", ""⟩ "/repo/f.txt" [9, 9]
    ⟨true, true⟩ _ _ (by decide) rfl).1
    ⟨"100644", "h0", "blob"⟩ (by decide) (by decide) (by decide)

theorem jsSplit_nul_pair (a b : String)
    (hA : ∀ c ∈ a.data, c ≠ '\x00') (hB : ∀ c ∈ b.data, c ≠ '\x00') :
    jsSplit '\x00' (a ++ "\x00" ++ b) = [a, b] := by
  unfold jsSplit
  have hdata : (a ++ "\x00" ++ b).data = a.data ++ '\x00' :: b.data := by
    show (a.data ++ ['\x00']) ++ b.data = _
    simp
  rw [hdata, splitCh_append_sep _ _ _ hA, splitCh_all_ne _ _ hB]
  rfl

theorem statLine_clean (e : IndexEntry) (hhash : cleanStrB e.hash = true)
    (hotype : e.otype = "blob" ∨ e.otype = "tree") :
    (e.otype ++ "\x00" ++ e.hash).data ≠ [] ∧
      ∀ c ∈ (e.otype ++ "\x00" ++ e.hash).data, isJsWs c = false := by
  have hh := cleanStrB_spec hhash
  have hdata : (e.otype ++ "\x00" ++ e.hash).data =
      e.otype.data ++ '\x00' :: e.hash.data := by
    show (e.otype.data ++ ['\x00']) ++ e.hash.data = _
    simp
  constructor
  · rw [hdata]
    rcases hotype with h | h <;> simp [h]
  · rw [hdata]
    intro c hc
    rcases List.mem_append.mp hc with hm | hm
    · have hb : ∀ c ∈ ("blob" : String).data, isJsWs c = false := by decide
      have ht : ∀ c ∈ ("tree" : String).data, isJsWs c = false := by decide
      rcases hotype with h | h
      · rw [h] at hm
        exact hb c hm
      · rw [h] at hm
        exact ht c hm
    · rcases List.mem_cons.mp hm with rfl | hm
      · decide
      · exact (hh.2 c hm).1

theorem readFileCore_entries (s : GitState) (uri : Uri) (local_path : String)
    (e : IndexEntry) (rest : List IndexEntry) (bs : Bytes)
    (hlocal : toLocalPath uri = some local_path)
    (hls : lsFilesAt s local_path = e :: rest)
    (hclean : ∀ x ∈ e :: rest, cleanStrB x.hash = true)
    (hobj : objLookup s e.hash = some bs) :
    readFileCore s uri = (.ok bs, decide (1 < (e :: rest).length)) := by
  have hparse : jsSplit '\n' (jsTrim (stdoutOf ((e :: rest).map
      (fun x => x.hash)))) = (e :: rest).map (fun x => x.hash) := by
    apply parse_stdout _ (by simp)
    intro l hl
    obtain ⟨x, hx, rfl⟩ := List.mem_map.mp hl
    have h' := cleanStrB_spec (hclean x hx)
    exact ⟨h'.1, fun c hc => (h'.2 c hc).1⟩
  have hhne : ¬ (e.hash = "") := by
    intro hc
    exact (cleanStrB_spec (hclean e (by simp))).1 (by rw [hc])
  simp only [readFileCore, hlocal, hls, hparse]
  simp only [List.map_cons, List.headD_cons]
  rw [if_neg hhne]
  rw [hobj]
  simp

theorem statCore_entries (s : GitState) (uri : Uri) (local_path : String)
    (e : IndexEntry) (rest : List IndexEntry) (bs : Bytes) (w : Stats × Bytes)
    (hlocal : toLocalPath uri = some local_path)
    (hls : lsFilesAt s local_path = e :: rest)
    (hcleanH : ∀ x ∈ e :: rest, cleanStrB x.hash = true)
    (hotype : ∀ x ∈ e :: rest, x.otype = "blob" ∨ x.otype = "tree")
    (hobj : objLookup s e.hash = some bs)
    (hwt : wtLookup s local_path = some w) :
    statCore s uri = (.ok ⟨(typeMap (some e.otype)).getD .Unknown, 0,
      s.indexStat.mtimeMs, bs.length⟩, decide (1 < (e :: rest).length)) := by
  have hparse : jsSplit '\n' (jsTrim (stdoutOf ((e :: rest).map
      (fun x => x.otype ++ "\x00" ++ x.hash)))) =
      (e :: rest).map (fun x => x.otype ++ "\x00" ++ x.hash) := by
    apply parse_stdout _ (by simp)
    intro l hl
    obtain ⟨x, hx, rfl⟩ := List.mem_map.mp hl
    exact statLine_clean x (hcleanH x hx) (hotype x hx)
  have he := cleanStrB_spec (hcleanH e (by simp))
  have heot := hotype e (by simp)
  have hline_ne : ¬ (e.otype ++ "\x00" ++ e.hash = "") := by
    intro hc
    exact (statLine_clean e (hcleanH e (by simp)) heot).1
      (congrArg String.data hc)
  have hpair : jsSplit '\x00' (e.otype ++ "\x00" ++ e.hash) =
      [e.otype, e.hash] := by
    apply jsSplit_nul_pair
    · rcases heot with h | h
      · rw [h]; decide
      · rw [h]; decide
    · exact fun c hc => (he.2 c hc).2
  have htm : ¬ (typeMap (some e.otype) = none) := by
    rcases heot with h | h <;> (rw [h]; simp [typeMap])
  simp only [statCore, hlocal, hls, hparse]
  simp only [List.map_cons, List.headD_cons]
  rw [if_neg hline_ne]
  rw [hpair]
  simp only [List.headD_cons, List.drop_one, List.tail_cons]
  rw [hobj]
  simp only []
  rw [if_neg htm]
  unfold getGitRootForFile
  rw [hwt]
  simp

/-- C7: the claim fails as stated: when a staged entry exists but the local
    file has been deleted from the working tree, `stat` does not return a
    FileStat at all — repository-root resolution (`getGitRootForFile`)
    `fs.stat`s the local path and the ENOENT rejection propagates. -/
theorem c7_counterexample :
    lsFilesAt ⟨"/r", [("f", ⟨"100644", "aa", "blob"⟩)], [("aa", [1, 2])],
        [], ⟨.file, 0, 5, 0, 0⟩⟩ "/r/f" = [⟨"100644", "aa", "blob"⟩] ∧
    objLookup ⟨"/r", [("f", ⟨"100644", "aa", "blob"⟩)], [("aa", [1, 2])],
        [], ⟨.file, 0, 5, 0, 0⟩⟩ "aa" = some [1, 2] ∧
    stat ⟨"/r", [("f", ⟨"100644", "aa", "blob"⟩)], [("aa", [1, 2])],
        [], ⟨.file, 0, 5, 0, 0⟩⟩ ⟨SCHEME, "", "/r/staged/f", "", ""⟩ =
      .error .NodeErr :=
  ⟨by decide, by decide, by rfl⟩

/-- C7 (amended): for a staged path whose entry hash resolves in the object
    store and whose local path still exists in the working tree (needed for
    repository-root resolution), `stat` reports the oracle content size for
    the entry's hash, creation time zero, and the modification time of the
    repository's index file. -/
theorem c7_stat_staged_metadata (s : GitState) (uri : Uri)
    (local_path : String) (e : IndexEntry) (bs : Bytes) (w : Stats × Bytes)
    (hlocal : toLocalPath uri = some local_path)
    (hls : lsFilesAt s local_path = [e])
    (hhash : cleanStrB e.hash = true)
    (hot : e.otype = "blob" ∨ e.otype = "tree")
    (hobj : objLookup s e.hash = some bs)
    (hwt : wtLookup s local_path = some w) :
    stat s uri = .ok ⟨(typeMap (some e.otype)).getD .Unknown, 0,
      s.indexStat.mtimeMs, bs.length⟩ := by
  unfold stat
  rw [statCore_entries s uri local_path e [] bs w hlocal hls
    (by intro x hx; simp at hx; rw [hx]; exact hhash)
    (by intro x hx; simp at hx; rw [hx]; exact hot) hobj hwt]

/-- Witness for the amended C7 at a concrete state with the working-tree
    file present. -/
theorem c7_stat_staged_metadata_witness :
    (toLocalPath ⟨SCHEME, "", "/r/staged/f", "", ""⟩ = some "/r/f") ∧
    (lsFilesAt ⟨"/r", [("f", ⟨"100644", "aa", "blob"⟩)], [("aa", [1, 2])],
      [("/r/f", ⟨.file, 3, 4, 9, 33188⟩, [7])], ⟨.file, 0, 5, 0, 0⟩⟩
      "/r/f" = [⟨"100644", "aa", "blob"⟩]) ∧
    stat ⟨"/r", [("f", ⟨"100644", "aa", "blob"⟩)], [("aa", [1, 2])],
        [("/r/f", ⟨.file, 3, 4, 9, 33188⟩, [7])], ⟨.file, 0, 5, 0, 0⟩⟩
      ⟨SCHEME, "", "/r/staged/f", "", ""⟩ = .ok ⟨.File, 0, 5, 2⟩ :=
  ⟨by decide, by decide,
    c7_stat_staged_metadata _ _ "/r/f" ⟨"100644", "aa", "blob"⟩ [1, 2]
      (⟨.file, 3, 4, 9, 33188⟩, [7]) (by decide) (by decide) (by decide)
      (Or.inl rfl) (by decide) (by decide)⟩

/-- C8: when the staged-index lookup reports several entries for one path
    (merge-conflict state), `readFile` and `stat` set the warning flag and
    proceed deterministically with the FIRST entry instead of failing. -/
theorem c8_conflict_uses_first_entry (s : GitState) (uri : Uri)
    (local_path : String) (e1 e2 : IndexEntry) (rest : List IndexEntry)
    (bs : Bytes) (w : Stats × Bytes)
    (hlocal : toLocalPath uri = some local_path)
    (hls : lsFilesAt s local_path = e1 :: e2 :: rest)
    (hclean : ∀ x ∈ e1 :: e2 :: rest, cleanStrB x.hash = true)
    (hot : ∀ x ∈ e1 :: e2 :: rest, x.otype = "blob" ∨ x.otype = "tree")
    (hobj : objLookup s e1.hash = some bs)
    (hwt : wtLookup s local_path = some w) :
    readFileCore s uri = (.ok bs, true) ∧
    statCore s uri = (.ok ⟨(typeMap (some e1.otype)).getD .Unknown, 0,
      s.indexStat.mtimeMs, bs.length⟩, true) := by
  have hlen : 1 < (e1 :: e2 :: rest).length := by
    simp [List.length_cons]
  constructor
  · rw [readFileCore_entries s uri local_path e1 (e2 :: rest) bs hlocal hls
      hclean hobj]
    rw [decide_eq_true hlen]
  · rw [statCore_entries s uri local_path e1 (e2 :: rest) bs w hlocal hls
      hclean hot hobj hwt]
    rw [decide_eq_true hlen]

/-- Witness for C8 at a concrete two-stage (conflicted) index. -/
theorem c8_conflict_uses_first_entry_witness :
    (toLocalPath ⟨SCHEME, "", "/r/staged/f", "", ""⟩ = some "/r/f") ∧
    (lsFilesAt ⟨"/r",
        [("f", ⟨"100644", "aa", "blob"⟩), ("f", ⟨"100755", "bb", "blob"⟩)],
        [("aa", [1, 2]), ("bb", [3])],
        [("/r/f", ⟨.file, 3, 4, 9, 33188⟩, [7])], ⟨.file, 0, 5, 0, 0⟩⟩
      "/r/f" = [⟨"100644", "aa", "blob"⟩, ⟨"100755", "bb", "blob"⟩]) ∧
    (readFileCore ⟨"/r",
        [("f", ⟨"100644", "aa", "blob"⟩), ("f", ⟨"100755", "bb", "blob"⟩)],
        [("aa", [1, 2]), ("bb", [3])],
        [("/r/f", ⟨.file, 3, 4, 9, 33188⟩, [7])], ⟨.file, 0, 5, 0, 0⟩⟩
      ⟨SCHEME, "", "/r/staged/f", "", ""⟩ = (.ok [1, 2], true) ∧
    statCore ⟨"/r",
        [("f", ⟨"100644", "aa", "blob"⟩), ("f", ⟨"100755", "bb", "blob"⟩)],
        [("aa", [1, 2]), ("bb", [3])],
        [("/r/f", ⟨.file, 3, 4, 9, 33188⟩, [7])], ⟨.file, 0, 5, 0, 0⟩⟩
      ⟨SCHEME, "", "/r/staged/f", "", ""⟩ = (.ok ⟨.File, 0, 5, 2⟩, true)) :=
  ⟨by decide, by decide,
    c8_conflict_uses_first_entry _ _ "/r/f" ⟨"100644", "aa", "blob"⟩
      ⟨"100755", "bb", "blob"⟩ [] [1, 2] (⟨.file, 3, 4, 9, 33188⟩, [7])
      (by decide) (by decide) (by decide)
      (by intro x hx
          simp only [List.mem_cons, List.not_mem_nil, or_false] at hx
          rcases hx with h | h
          · rw [h]; exact Or.inl rfl
          · rw [h]; exact Or.inl rfl)
      (by decide) (by decide)⟩

theorem split_stdout_raw (lines : List String)
    (h : ∀ l ∈ lines, ∀ c ∈ l.data, c ≠ '\n') :
    jsSplit '\n' (stdoutOf lines) = lines ++ [""] := by
  induction lines with
  | nil => rfl
  | cons l t ih =>
    unfold jsSplit
    have hdata : (stdoutOf (l :: t)).data =
        l.data ++ '\n' :: (stdoutOf t).data := by
      rw [stdoutOf_data, stdoutOf_data]
      simp
    rw [hdata, splitCh_append_sep _ _ _ (h l (by simp))]
    have iht := ih (fun x hx => h x (by simp [hx]))
    unfold jsSplit at iht
    simp only [List.map_cons]
    rw [iht]
    rfl

/-- C9: `readDirectory` splits the RAW listing output (no trim) on
    newlines, producing one result entry per segment including the segment
    after the final trailing newline: the result is the per-child entries
    followed by a last entry whose name is the empty string and whose type
    is the unmatched type-map lookup (`undefined`, modelled `none`); in
    particular the result is never empty. -/
theorem c9_readDirectory_trailing_empty_entry (s : GitState) (uri : Uri) (local_path : String)
    (hlocal : toLocalPath uri = some local_path)
    (hclean : ∀ kv ∈ childEntries s local_path,
      (∀ c ∈ (shownPath s local_path kv.1).data, c ≠ '\n' ∧ c ≠ '\x00') ∧
      (∀ c ∈ kv.2.otype.data, c ≠ '\n' ∧ c ≠ '\x00')) :
    readDirectory s uri = .ok ((childEntries s local_path).map
      (fun kv => (shownPath s local_path kv.1,
        typeMap (some kv.2.otype))) ++ [("", none)]) ∧
    ∀ L, readDirectory s uri = .ok L →
      L ≠ [] ∧ L.getLast? = some ("", none) := by
  have hmain : readDirectory s uri = .ok ((childEntries s local_path).map
      (fun kv => (shownPath s local_path kv.1,
        typeMap (some kv.2.otype))) ++ [("", none)]) := by
    unfold readDirectory
    rw [hlocal]
    simp only []
    rw [split_stdout_raw _ (by
      intro l hl
      obtain ⟨kv, hkv, rfl⟩ := List.mem_map.mp hl
      intro c hc
      have hck := hclean kv hkv
      have hdata : (shownPath s local_path kv.1 ++ "\x00" ++
          kv.2.otype).data = (shownPath s local_path kv.1).data ++
          '\x00' :: kv.2.otype.data := by
        show ((shownPath s local_path kv.1).data ++ ['\x00']) ++
          kv.2.otype.data = _
        simp
      rw [hdata] at hc
      rcases List.mem_append.mp hc with hm | hm
      · exact (hck.1 c hm).1
      · rcases List.mem_cons.mp hm with rfl | hm
        · decide
        · exact (hck.2 c hm).1)]
    rw [List.map_append, List.map_map]
    have hleft : (childEntries s local_path).map
        (((fun entry => ((jsSplit '\x00' entry).headD "",
          typeMap (List.drop 1 (jsSplit '\x00' entry)).head?)) ∘
          fun kv => shownPath s local_path kv.1 ++ "\x00" ++ kv.2.otype)) =
        (childEntries s local_path).map
        (fun kv => (shownPath s local_path kv.1,
          typeMap (some kv.2.otype))) :=
      List.map_congr_left (by
        intro kv hkv
        have hck := hclean kv hkv
        simp only [Function.comp]
        rw [jsSplit_nul_pair _ _ (fun c hc => (hck.1 c hc).2)
          (fun c hc => (hck.2 c hc).2)]
        rfl)
    rw [hleft]
    rfl
  refine ⟨hmain, ?_⟩
  intro L hL
  rw [hmain] at hL
  injection hL with hL
  rw [← hL]
  constructor
  · simp
  · simp

/-- Witness for C9 at a concrete index with two immediate children and one
    deeper descendant under `sub`. -/
theorem c9_readDirectory_trailing_empty_entry_witness :
    (toLocalPath ⟨SCHEME, "", "/repo/staged/sub", "", ""⟩ =
      some "/repo/sub") ∧
    readDirectory
      ⟨"/repo", [("sub/a", ⟨"100644", "h1", "blob"⟩),
        ("sub/b/c", ⟨"100644", "h2", "blob"⟩),
        ("sub/d", ⟨"40000", "h3", "tree"⟩)], [], [], ⟨.file, 0, 0, 0, 0⟩⟩
      ⟨SCHEME, "", "/repo/staged/sub", "", ""⟩ =
      .ok [("sub/a", some .File), ("sub/d", some .Directory),
        ("", none)] := by
  constructor
  · decide
  · have h := (c9_readDirectory_trailing_empty_entry
      ⟨"/repo", [("sub/a", ⟨"100644", "h1", "blob"⟩),
        ("sub/b/c", ⟨"100644", "h2", "blob"⟩),
        ("sub/d", ⟨"40000", "h3", "tree"⟩)], [], [], ⟨.file, 0, 0, 0, 0⟩⟩
      ⟨SCHEME, "", "/repo/staged/sub", "", ""⟩ "/repo/sub"
      (by decide) (by decide)).1
    rw [h]
    rfl
theorem invW_init : InvW initW := by
  refine ⟨?_, ?_, ?_, ?_, ?_, ?_, ?_, ?_, ?_⟩ <;>
    simp [initW, List.Pairwise.nil]

theorem invW_call (s : WState) (root : String) (h : InvW s) :
    InvW (stepW s (.call root)) := by
  obtain ⟨hB, hC, hD, hE, hF, hG, hA1, hA3, hA0⟩ := h
  unfold InvW stepW
  dsimp only []
  refine ⟨hB, hC, hD, hE, hF, ?_, ?_, ?_, ?_⟩
  · intro sid hsid
    simp only [setSub]
    rw [if_neg (by omega)]
    exact hG sid (by omega)
  · intro sid sub hsub hdisp hlist
    simp only [setSub] at hsub
    by_cases hcase : sid = s.nextSub
    · rw [if_pos hcase] at hsub
      injection hsub with hsub
      rw [← hsub] at hlist
      simp at hlist
    · rw [if_neg hcase] at hsub
      exact hA1 sid sub hsub hdisp hlist
  · intro sid sub hsub hdisp hroot
    simp only [setSub] at hsub
    by_cases hcase : sid = s.nextSub
    · rw [if_pos hcase] at hsub
      injection hsub with hsub
      rw [← hsub] at hroot
      simp at hroot
    · rw [if_neg hcase] at hsub
      exact hA3 sid sub hsub hdisp hroot
  · intro sid sub hsub
    simp only [setSub] at hsub
    by_cases hcase : sid = s.nextSub
    · rw [if_pos hcase] at hsub
      injection hsub with hsub
      rw [← hsub]
    · rw [if_neg hcase] at hsub
      exact hA0 sid sub hsub

theorem addListener_mem_iff (insts : List WInst) (wid sid : Nat) (w' : WInst) :
    w' ∈ addListener insts wid sid ↔ ∃ w ∈ insts,
      w' = if w.wid = wid then { w with listeners := w.listeners ++ [sid] }
        else w := by
  unfold addListener
  rw [List.mem_map]
  constructor
  · rintro ⟨w, hm, rfl⟩
    exact ⟨w, hm, rfl⟩
  · rintro ⟨w, hm, rfl⟩
    exact ⟨w, hm, rfl⟩

theorem removeListener_mem_iff (insts : List WInst) (wid sid : Nat)
    (w' : WInst) :
    w' ∈ removeListener insts wid sid ↔ ∃ w ∈ insts,
      w' = if w.wid = wid then
        { w with listeners := w.listeners.filter (· ≠ sid) } else w := by
  unfold removeListener
  rw [List.mem_map]
  constructor
  · rintro ⟨w, hm, rfl⟩
    exact ⟨w, hm, rfl⟩
  · rintro ⟨w, hm, rfl⟩
    exact ⟨w, hm, rfl⟩

theorem disposeInst_mem_iff (insts : List WInst) (wid : Nat) (w' : WInst) :
    w' ∈ disposeInst insts wid ↔ ∃ w ∈ insts,
      w' = if w.wid = wid then { w with disposedW := true } else w := by
  unfold disposeInst
  rw [List.mem_map]
  constructor
  · rintro ⟨w, hm, rfl⟩
    exact ⟨w, hm, rfl⟩
  · rintro ⟨w, hm, rfl⟩
    exact ⟨w, hm, rfl⟩

theorem addListener_pairwise (insts : List WInst) (wid sid : Nat)
    (h : insts.Pairwise (fun a b => a.wid ≠ b.wid)) :
    (addListener insts wid sid).Pairwise (fun a b => a.wid ≠ b.wid) := by
  unfold addListener
  rw [List.pairwise_map]
  refine h.imp ?_
  intro a b hab
  by_cases ha : a.wid = wid <;> by_cases hb : b.wid = wid <;>
    simp [ha, hb] <;> omega

theorem removeListener_pairwise (insts : List WInst) (wid sid : Nat)
    (h : insts.Pairwise (fun a b => a.wid ≠ b.wid)) :
    (removeListener insts wid sid).Pairwise (fun a b => a.wid ≠ b.wid) := by
  unfold removeListener
  rw [List.pairwise_map]
  refine h.imp ?_
  intro a b hab
  by_cases ha : a.wid = wid <;> by_cases hb : b.wid = wid <;>
    simp [ha, hb] <;> omega

theorem disposeInst_pairwise (insts : List WInst) (wid : Nat)
    (h : insts.Pairwise (fun a b => a.wid ≠ b.wid)) :
    (disposeInst insts wid).Pairwise (fun a b => a.wid ≠ b.wid) := by
  unfold disposeInst
  rw [List.pairwise_map]
  refine h.imp ?_
  intro a b hab
  by_cases ha : a.wid = wid <;> by_cases hb : b.wid = wid <;>
    simp [ha, hb] <;> omega

theorem wid_unique (insts : List WInst)
    (hD : insts.Pairwise (fun a b => a.wid ≠ b.wid)) (a b : WInst)
    (ha : a ∈ insts) (hb : b ∈ insts) (hw : a.wid = b.wid) : a = b := by
  induction insts with
  | nil => cases ha
  | cons x t ih =>
    rcases List.mem_cons.mp ha with rfl | ha' <;>
      rcases List.mem_cons.mp hb with rfl | hb'
    · rfl
    · exact absurd hw ((List.pairwise_cons.mp hD).1 b hb')
    · exact absurd hw.symm ((List.pairwise_cons.mp hD).1 a ha')
    · exact ih (List.pairwise_cons.mp hD).2 ha' hb'

theorem iteL_fields (w : WInst) (c : Prop) [inst : Decidable c]
    (l : List Nat) :
    (if c then { w with listeners := l } else w).wid = w.wid ∧
    (if c then { w with listeners := l } else w).root = w.root ∧
    (if c then { w with listeners := l } else w).disposedW = w.disposedW := by
  by_cases hc : c <;> simp [hc]

theorem invW_resolve (s : WState) (sid : Nat) (h : InvW s) :
    InvW (stepW s (.resolve sid)) := by
  obtain ⟨hB, hC, hD, hE, hF, hG, hA1, hA3, hA0⟩ := h
  unfold stepW
  dsimp only []
  cases hsub : s.subs sid with
  | none => exact ⟨hB, hC, hD, hE, hF, hG, hA1, hA3, hA0⟩
  | some sub =>
    dsimp only []
    by_cases hgr : sub.gitRoot ≠ none
    · rw [if_pos hgr]
      exact ⟨hB, hC, hD, hE, hF, hG, hA1, hA3, hA0⟩
    · rw [if_neg hgr]
      push_neg at hgr
      have hsidlt : ¬ (s.nextSub ≤ sid) := by
        intro hle
        rw [hG sid hle] at hsub
        cases hsub
      by_cases hcan : sub.isCancelled
      · rw [if_pos hcan]
        have hdispT : sub.disposed = true := by
          rw [← hA0 sid sub hsub]
          exact hcan
        unfold InvW
        dsimp only []
        refine ⟨hB, hC, hD, hE, hF, ?_, ?_, ?_, ?_⟩
        · intro sid' hle
          simp only [setSub]
          rw [if_neg (by intro he; rw [he] at hle; exact hsidlt hle)]
          exact hG sid' hle
        · intro sid' sub' hsub' hdisp hlist
          simp only [setSub] at hsub'
          by_cases hcase : sid' = sid
          · rw [if_pos hcase] at hsub'
            injection hsub' with hsub'
            rw [← hsub'] at hdisp
            dsimp only [] at hdisp
            rw [hdispT] at hdisp
            cases hdisp
          · rw [if_neg hcase] at hsub'
            exact hA1 sid' sub' hsub' hdisp hlist
        · intro sid' sub' hsub' hdisp hroot
          simp only [setSub] at hsub'
          by_cases hcase : sid' = sid
          · rw [if_pos hcase] at hsub'
            injection hsub' with hsub'
            rw [← hsub'] at hdisp
            dsimp only [] at hdisp
            rw [hdispT] at hdisp
            cases hdisp
          · rw [if_neg hcase] at hsub'
            exact hA3 sid' sub' hsub' hdisp hroot
        · intro sid' sub' hsub'
          simp only [setSub] at hsub'
          by_cases hcase : sid' = sid
          · rw [if_pos hcase] at hsub'
            injection hsub' with hsub'
            rw [← hsub']
            dsimp only []
            exact hA0 sid sub hsub
          · rw [if_neg hcase] at hsub'
            exact hA0 sid' sub' hsub'
      · rw [if_neg hcan]
        cases hreg : s.registry sub.root with
        | some wid =>
          obtain ⟨wreg, hwm, hwwid, hwroot, hwalive⟩ := hB sub.root wid hreg
          unfold InvW
          dsimp only []
          refine ⟨?_, ?_, ?_, ?_, ?_, ?_, ?_, ?_, ?_⟩
          · intro r wid' hr
            obtain ⟨w, hm, h1, h2, h3⟩ := hB r wid' hr
            refine ⟨_, (addListener_mem_iff _ _ _ _).mpr ⟨w, hm, rfl⟩,
              ?_, ?_, ?_⟩
            · rw [(iteL_fields w _ _).1]
              exact h1
            · rw [(iteL_fields w _ _).2.1]
              exact h2
            · rw [(iteL_fields w _ _).2.2]
              exact h3
          · intro w' hm' halive'
            obtain ⟨w, hm, rfl⟩ := (addListener_mem_iff _ _ _ _).mp hm'
            rw [(iteL_fields w _ _).2.2] at halive'
            rw [(iteL_fields w _ _).2.1, (iteL_fields w _ _).1]
            exact hC w hm halive'
          · exact addListener_pairwise _ _ _ hD
          · intro w' hm' hdisp'
            obtain ⟨w, hm, rfl⟩ := (addListener_mem_iff _ _ _ _).mp hm'
            rw [(iteL_fields w _ _).2.2] at hdisp'
            by_cases hc : w.wid = wid
            · have hweq : w = wreg := wid_unique s.insts hD w wreg hm hwm
                (by rw [hc, hwwid])
              rw [hweq, hwalive] at hdisp'
              cases hdisp'
            · rw [if_neg hc]
              exact hE w hm hdisp'
          · intro w' hm'
            obtain ⟨w, hm, rfl⟩ := (addListener_mem_iff _ _ _ _).mp hm'
            rw [(iteL_fields w _ _).1]
            exact hF w hm
          · intro sid' hle
            simp only [setSub]
            rw [if_neg (by intro he; rw [he] at hle; exact hsidlt hle)]
            exact hG sid' hle
          · intro sid' sub' hsub' hdisp hlist
            simp only [setSub] at hsub'
            by_cases hcase : sid' = sid
            · rw [if_pos hcase] at hsub'
              injection hsub' with hsub'
              refine ⟨by rw [← hsub'], ?_⟩
              refine ⟨{ wreg with listeners := wreg.listeners ++ [sid] },
                (addListener_mem_iff _ _ _ _).mpr ⟨wreg, hwm,
                  by rw [if_pos hwwid]⟩, ?_, ?_, ?_⟩
              · rw [← hsub']
                dsimp only []
                rw [hwwid]
              · rw [← hsub']
                dsimp only []
                exact hwroot
              · rw [hcase]
                simp
            · rw [if_neg hcase] at hsub'
              obtain ⟨hgr', w, hm, hwid', hroot', hmem'⟩ :=
                hA1 sid' sub' hsub' hdisp hlist
              refine ⟨hgr', _,
                (addListener_mem_iff _ _ _ _).mpr ⟨w, hm, rfl⟩, ?_, ?_, ?_⟩
              · rw [(iteL_fields w _ _).1]
                exact hwid'
              · rw [(iteL_fields w _ _).2.1]
                exact hroot'
              · by_cases hc : w.wid = wid
                · rw [if_pos hc]
                  dsimp only []
                  exact List.mem_append_left _ hmem'
                · rw [if_neg hc]
                  exact hmem'
          · intro sid' sub' hsub' hdisp hroot
            simp only [setSub] at hsub'
            by_cases hcase : sid' = sid
            · rw [if_pos hcase] at hsub'
              injection hsub' with hsub'
              rw [← hsub']
            · rw [if_neg hcase] at hsub'
              exact hA3 sid' sub' hsub' hdisp hroot
          · intro sid' sub' hsub'
            simp only [setSub] at hsub'
            by_cases hcase : sid' = sid
            · rw [if_pos hcase] at hsub'
              injection hsub' with hsub'
              rw [← hsub']
              dsimp only []
              exact hA0 sid sub hsub
            · rw [if_neg hcase] at hsub'
              exact hA0 sid' sub' hsub'
        | none =>
          unfold InvW
          dsimp only []
          refine ⟨?_, ?_, ?_, ?_, ?_, ?_, ?_, ?_, ?_⟩
          · intro r wid' hr
            simp only [setReg] at hr
            by_cases hrc : r = sub.root
            · rw [if_pos hrc] at hr
              injection hr with hr
              refine ⟨⟨s.nextW, sub.root, [sid], false⟩, ?_,
                by rw [hr], hrc.symm, rfl⟩
              simp
            · rw [if_neg hrc] at hr
              obtain ⟨w, hm, h1, h2, h3⟩ := hB r wid' hr
              exact ⟨w, List.mem_append_left _ hm, h1, h2, h3⟩
          · intro w' hm' halive'
            rcases List.mem_append.mp hm' with hm | hm
            · have hcw := hC w' hm halive'
              simp only [setReg]
              rw [if_neg (by
                intro he
                rw [he] at hcw
                rw [hreg] at hcw
                cases hcw)]
              exact hcw
            · simp only [List.mem_singleton] at hm
              rw [hm]
              simp [setReg]
          · rw [List.pairwise_append]
            refine ⟨hD, by simp, ?_⟩
            intro a ha b hb
            simp only [List.mem_singleton] at hb
            rw [hb]
            have := hF a ha
            dsimp only []
            omega
          · intro w' hm' hdisp'
            rcases List.mem_append.mp hm' with hm | hm
            · exact hE w' hm hdisp'
            · simp only [List.mem_singleton] at hm
              rw [hm] at hdisp'
              cases hdisp'
          · intro w' hm'
            rcases List.mem_append.mp hm' with hm | hm
            · have := hF w' hm
              omega
            · simp only [List.mem_singleton] at hm
              rw [hm]
              dsimp only []
              omega
          · intro sid' hle
            simp only [setSub]
            rw [if_neg (by intro he; rw [he] at hle; exact hsidlt hle)]
            exact hG sid' hle
          · intro sid' sub' hsub' hdisp hlist
            simp only [setSub] at hsub'
            by_cases hcase : sid' = sid
            · rw [if_pos hcase] at hsub'
              injection hsub' with hsub'
              refine ⟨by rw [← hsub'], ?_⟩
              refine ⟨⟨s.nextW, sub.root, [sid], false⟩,
                List.mem_append_right _ (by simp), ?_, ?_, ?_⟩
              · rw [← hsub']
              · rw [← hsub']
              · rw [hcase]
                simp
            · rw [if_neg hcase] at hsub'
              obtain ⟨hgr', w, hm, hwid', hroot', hmem'⟩ :=
                hA1 sid' sub' hsub' hdisp hlist
              exact ⟨hgr', w, List.mem_append_left _ hm, hwid', hroot',
                hmem'⟩
          · intro sid' sub' hsub' hdisp hroot
            simp only [setSub] at hsub'
            by_cases hcase : sid' = sid
            · rw [if_pos hcase] at hsub'
              injection hsub' with hsub'
              rw [← hsub']
            · rw [if_neg hcase] at hsub'
              exact hA3 sid' sub' hsub' hdisp hroot
          · intro sid' sub' hsub'
            simp only [setSub] at hsub'
            by_cases hcase : sid' = sid
            · rw [if_pos hcase] at hsub'
              injection hsub' with hsub'
              rw [← hsub']
              dsimp only []
              exact hA0 sid sub hsub
            · rw [if_neg hcase] at hsub'
              exact hA0 sid' sub' hsub'

theorem getInst_removeListener (insts : List WInst) (wid sid : Nat)
    (hD : insts.Pairwise (fun a b => a.wid ≠ b.wid)) (w : WInst)
    (hm : w ∈ insts) (hwid : w.wid = wid) :
    getInst (removeListener insts wid sid) wid =
      some { w with listeners := w.listeners.filter (· ≠ sid) } := by
  induction insts with
  | nil => cases hm
  | cons x t ih =>
    have hDt := (List.pairwise_cons.mp hD).2
    have hDh := (List.pairwise_cons.mp hD).1
    unfold removeListener getInst at ih ⊢
    simp only [List.map_cons]
    by_cases hx : x.wid = wid
    · have hwx : w = x := by
        rcases List.mem_cons.mp hm with rfl | hm'
        · rfl
        · exact absurd (hwid.trans hx.symm) (fun hh => hDh w hm' hh.symm)
      rw [if_pos hx]
      rw [List.find?_cons_of_pos _ (by simp [hx])]
      rw [hwx]
    · rw [if_neg hx]
      rw [List.find?_cons_of_neg _ (by simp [hx])]
      rcases List.mem_cons.mp hm with rfl | hm'
      · exact absurd hwid hx
      · exact ih hDt hm'

theorem filter_empty_all (l : List Nat) (sid : Nat)
    (h : l.filter (· ≠ sid) = []) : ∀ x ∈ l, x = sid := by
  intro x hx
  by_contra hne
  have hxm : x ∈ l.filter (· ≠ sid) :=
    List.mem_filter.mpr ⟨hx, by simp [hne]⟩
  rw [h] at hxm
  cases hxm

theorem invW_dispose (s : WState) (sid : Nat) (h : InvW s) :
    InvW (stepW s (.dispose sid)) := by
  obtain ⟨hB, hC, hD, hE, hF, hG, hA1, hA3, hA0⟩ := h
  unfold stepW
  dsimp only []
  cases hsub : s.subs sid with
  | none => exact ⟨hB, hC, hD, hE, hF, hG, hA1, hA3, hA0⟩
  | some sub =>
    dsimp only []
    by_cases hdispd : sub.disposed = true
    · rw [if_pos hdispd]
      exact ⟨hB, hC, hD, hE, hF, hG, hA1, hA3, hA0⟩
    · rw [if_neg hdispd]
      have hsidlt : ¬ (s.nextSub ≤ sid) := by
        intro hle
        rw [hG sid hle] at hsub
        cases hsub
      have hdispf : sub.disposed = false := by
        cases hd : sub.disposed
        · rfl
        · exact absurd hd hdispd
      cases hgr : sub.gitRoot with
      | none =>
        have hlistf : sub.listener = false := by
          cases hl : sub.listener
          · rfl
          · obtain ⟨hgr', _⟩ := hA1 sid sub hsub hdispf hl
            rw [hgr] at hgr'
            cases hgr'
        have hinsts1 : (match sub.watcherId with
            | some wid => if sub.listener = true then
                removeListener s.insts wid sid else s.insts
            | none => s.insts) = s.insts := by
          cases sub.watcherId with
          | none => rfl
          | some wid =>
            dsimp only []
            rw [if_neg (by rw [hlistf]; simp)]
        rw [hinsts1]
        unfold InvW
        dsimp only []
        refine ⟨hB, hC, hD, hE, hF, ?_, ?_, ?_, ?_⟩
        · intro sid' hle
          simp only [setSub]
          rw [if_neg (by intro he; rw [he] at hle; exact hsidlt hle)]
          exact hG sid' hle
        · intro sid' sub' hsub' hdisp hlist
          simp only [setSub] at hsub'
          by_cases hcase : sid' = sid
          · rw [if_pos hcase] at hsub'
            injection hsub' with hsub'
            rw [← hsub'] at hdisp
            cases hdisp
          · rw [if_neg hcase] at hsub'
            exact hA1 sid' sub' hsub' hdisp hlist
        · intro sid' sub' hsub' hdisp hroot
          simp only [setSub] at hsub'
          by_cases hcase : sid' = sid
          · rw [if_pos hcase] at hsub'
            injection hsub' with hsub'
            rw [← hsub'] at hdisp
            cases hdisp
          · rw [if_neg hcase] at hsub'
            exact hA3 sid' sub' hsub' hdisp hroot
        · intro sid' sub' hsub'
          simp only [setSub] at hsub'
          by_cases hcase : sid' = sid
          · rw [if_pos hcase] at hsub'
            injection hsub' with hsub'
            rw [← hsub']
          · rw [if_neg hcase] at hsub'
            exact hA0 sid' sub' hsub'
      | some r =>
        have hlist : sub.listener = true :=
          hA3 sid sub hsub hdispf (by rw [hgr]; simp)
        obtain ⟨hgr', wl, hwlm, hwlwid, hwlroot, hwlmem⟩ :=
          hA1 sid sub hsub hdispf hlist
        have hr : r = sub.root := by
          rw [hgr] at hgr'
          injection hgr'
        have hwlalive : wl.disposedW = false := by
          cases hd : wl.disposedW
          · rfl
          · rw [hE wl hwlm hd] at hwlmem
            cases hwlmem
        have hregr : s.registry r = some wl.wid := by
          rw [hr, ← hwlroot]
          exact hC wl hwlm hwlalive
        have hinsts1 : (match sub.watcherId with
            | some wid => if sub.listener = true then
                removeListener s.insts wid sid else s.insts
            | none => s.insts) = removeListener s.insts wl.wid sid := by
          rw [hwlwid]
          dsimp only []
          rw [if_pos hlist]
        dsimp only []
        rw [hinsts1]
        rw [hregr]
        dsimp only []
        rw [getInst_removeListener s.insts wl.wid sid hD wl hwlm rfl]
        dsimp only []
        by_cases hemp : wl.listeners.filter (fun x => decide (x ≠ sid)) = []
        · rw [if_pos hemp]
          have hall : ∀ x ∈ wl.listeners, x = sid :=
            filter_empty_all wl.listeners sid hemp
          unfold InvW
          dsimp only []
          refine ⟨?_, ?_, ?_, ?_, ?_, ?_, ?_, ?_, ?_⟩
          · intro r' wid' hr'
            simp only [setReg] at hr'
            by_cases hrc : r' = r
            · rw [if_pos hrc] at hr'
              cases hr'
            · rw [if_neg hrc] at hr'
              obtain ⟨w, hm, h1, h2, h3⟩ := hB r' wid' hr'
              have hwne : ¬ (w.wid = wl.wid) := by
                intro hww
                have : w = wl := wid_unique s.insts hD w wl hm hwlm hww
                rw [this] at h2
                rw [hwlroot, ← hr] at h2
                exact hrc h2.symm
              have hmr : w ∈ removeListener s.insts wl.wid sid := by
                rw [removeListener_mem_iff]
                exact ⟨w, hm, (if_neg hwne).symm⟩
              have hmd : w ∈ disposeInst
                  (removeListener s.insts wl.wid sid) wl.wid :=
                (disposeInst_mem_iff _ _ _).mpr
                  ⟨w, hmr, (if_neg hwne).symm⟩
              exact ⟨w, hmd, h1, h2, h3⟩
          · intro w'' hm'' halive''
            obtain ⟨v, hv, rfl⟩ := (disposeInst_mem_iff _ _ _).mp hm''
            obtain ⟨w, hm, rfl⟩ := (removeListener_mem_iff _ _ _ _).mp hv
            by_cases hwc : w.wid = wl.wid
            · rw [if_pos hwc] at halive''
              dsimp only [] at halive''
              rw [if_pos hwc] at halive''
              cases halive''
            · rw [if_neg hwc] at halive'' ⊢
              rw [if_neg hwc] at halive'' ⊢
              have hcw := hC w hm halive''
              simp only [setReg]
              rw [if_neg (by
                intro he
                rw [he, hregr] at hcw
                injection hcw with hcw
                exact hwc hcw.symm)]
              exact hcw
          · exact disposeInst_pairwise _ _
              (removeListener_pairwise _ _ _ hD)
          · intro w'' hm'' hdisp''
            obtain ⟨v, hv, rfl⟩ := (disposeInst_mem_iff _ _ _).mp hm''
            obtain ⟨w, hm, rfl⟩ := (removeListener_mem_iff _ _ _ _).mp hv
            by_cases hwc : w.wid = wl.wid
            · have hweq : w = wl := wid_unique s.insts hD w wl hm hwlm hwc
              rw [if_pos hwc]
              dsimp only []
              rw [if_pos hwc]
              dsimp only []
              rw [hweq]
              exact hemp
            · rw [if_neg hwc] at hdisp'' ⊢
              rw [if_neg hwc] at hdisp'' ⊢
              exact hE w hm hdisp''
          · intro w'' hm''
            obtain ⟨v, hv, rfl⟩ := (disposeInst_mem_iff _ _ _).mp hm''
            obtain ⟨w, hm, rfl⟩ := (removeListener_mem_iff _ _ _ _).mp hv
            by_cases hwc : w.wid = wl.wid
            · rw [if_pos hwc]
              dsimp only []
              rw [if_pos hwc]
              exact hF w hm
            · rw [if_neg hwc]
              rw [if_neg hwc]
              exact hF w hm
          · intro sid' hle
            simp only [setSub]
            rw [if_neg (by intro he; rw [he] at hle; exact hsidlt hle)]
            exact hG sid' hle
          · intro sid' sub' hsub' hdisp hlist'
            simp only [setSub] at hsub'
            by_cases hcase : sid' = sid
            · rw [if_pos hcase] at hsub'
              injection hsub' with hsub'
              rw [← hsub'] at hdisp
              cases hdisp
            · rw [if_neg hcase] at hsub'
              obtain ⟨hgr2, w, hm, hwid2, hroot2, hmem2⟩ :=
                hA1 sid' sub' hsub' hdisp hlist'
              have hwne : ¬ (w.wid = wl.wid) := by
                intro hww
                have hweq : w = wl := wid_unique s.insts hD w wl hm hwlm hww
                rw [hweq] at hmem2
                exact hcase (hall sid' hmem2)
              have hmr : w ∈ removeListener s.insts wl.wid sid := by
                rw [removeListener_mem_iff]
                exact ⟨w, hm, (if_neg hwne).symm⟩
              have hmd : w ∈ disposeInst
                  (removeListener s.insts wl.wid sid) wl.wid :=
                (disposeInst_mem_iff _ _ _).mpr
                  ⟨w, hmr, (if_neg hwne).symm⟩
              exact ⟨hgr2, w, hmd, hwid2, hroot2, hmem2⟩
          · intro sid' sub' hsub' hdisp hroot'
            simp only [setSub] at hsub'
            by_cases hcase : sid' = sid
            · rw [if_pos hcase] at hsub'
              injection hsub' with hsub'
              rw [← hsub'] at hdisp
              cases hdisp
            · rw [if_neg hcase] at hsub'
              exact hA3 sid' sub' hsub' hdisp hroot'
          · intro sid' sub' hsub'
            simp only [setSub] at hsub'
            by_cases hcase : sid' = sid
            · rw [if_pos hcase] at hsub'
              injection hsub' with hsub'
              rw [← hsub']
            · rw [if_neg hcase] at hsub'
              exact hA0 sid' sub' hsub'
        · rw [if_neg hemp]
          unfold InvW
          dsimp only []
          refine ⟨?_, ?_, ?_, ?_, ?_, ?_, ?_, ?_, ?_⟩
          · intro r' wid' hr'
            obtain ⟨w, hm, h1, h2, h3⟩ := hB r' wid' hr'
            refine ⟨_, (removeListener_mem_iff _ _ _ _).mpr ⟨w, hm, rfl⟩,
              ?_, ?_, ?_⟩
            · rw [(iteL_fields w _ _).1]
              exact h1
            · rw [(iteL_fields w _ _).2.1]
              exact h2
            · rw [(iteL_fields w _ _).2.2]
              exact h3
          · intro w'' hm'' halive''
            obtain ⟨w, hm, rfl⟩ := (removeListener_mem_iff _ _ _ _).mp hm''
            rw [(iteL_fields w _ _).2.2] at halive''
            rw [(iteL_fields w _ _).2.1, (iteL_fields w _ _).1]
            exact hC w hm halive''
          · exact removeListener_pairwise _ _ _ hD
          · intro w'' hm'' hdisp''
            obtain ⟨w, hm, rfl⟩ := (removeListener_mem_iff _ _ _ _).mp hm''
            rw [(iteL_fields w _ _).2.2] at hdisp''
            have hle := hE w hm hdisp''
            by_cases hwc : w.wid = wl.wid
            · rw [if_pos hwc]
              dsimp only []
              rw [hle]
              rfl
            · rw [if_neg hwc]
              exact hle
          · intro w'' hm''
            obtain ⟨w, hm, rfl⟩ := (removeListener_mem_iff _ _ _ _).mp hm''
            rw [(iteL_fields w _ _).1]
            exact hF w hm
          · intro sid' hle
            simp only [setSub]
            rw [if_neg (by intro he; rw [he] at hle; exact hsidlt hle)]
            exact hG sid' hle
          · intro sid' sub' hsub' hdisp hlist'
            simp only [setSub] at hsub'
            by_cases hcase : sid' = sid
            · rw [if_pos hcase] at hsub'
              injection hsub' with hsub'
              rw [← hsub'] at hdisp
              cases hdisp
            · rw [if_neg hcase] at hsub'
              obtain ⟨hgr2, w, hm, hwid2, hroot2, hmem2⟩ :=
                hA1 sid' sub' hsub' hdisp hlist'
              refine ⟨hgr2, _,
                (removeListener_mem_iff _ _ _ _).mpr ⟨w, hm, rfl⟩,
                ?_, ?_, ?_⟩
              · rw [(iteL_fields w _ _).1]
                exact hwid2
              · rw [(iteL_fields w _ _).2.1]
                exact hroot2
              · by_cases hwc : w.wid = wl.wid
                · rw [if_pos hwc]
                  dsimp only []
                  exact List.mem_filter.mpr ⟨hmem2, by simp [hcase]⟩
                · rw [if_neg hwc]
                  exact hmem2
          · intro sid' sub' hsub' hdisp hroot'
            simp only [setSub] at hsub'
            by_cases hcase : sid' = sid
            · rw [if_pos hcase] at hsub'
              injection hsub' with hsub'
              rw [← hsub'] at hdisp
              cases hdisp
            · rw [if_neg hcase] at hsub'
              exact hA3 sid' sub' hsub' hdisp hroot'
          · intro sid' sub' hsub'
            simp only [setSub] at hsub'
            by_cases hcase : sid' = sid
            · rw [if_pos hcase] at hsub'
              injection hsub' with hsub'
              rw [← hsub']
            · rw [if_neg hcase] at hsub'
              exact hA0 sid' sub' hsub'

theorem invW_step (s : WState) (e : WEvent) (h : InvW s) : InvW (stepW s e) := by
  cases e with
  | call root => exact invW_call s root h
  | resolve sid => exact invW_resolve s sid h
  | dispose sid => exact invW_dispose s sid h

theorem invW_foldl (evs : List WEvent) (s : WState) (h : InvW s) :
    InvW (evs.foldl stepW s) := by
  induction evs generalizing s with
  | nil => exact h
  | cons e t ih => exact ih (stepW s e) (invW_step s e h)

theorem invW_reachable (s : WState) (h : ReachableW s) : InvW s := by
  obtain ⟨evs, hevs⟩ := h
  rw [hevs]
  exact invW_foldl evs initW invW_init

theorem aliveFor_le_one (s : WState) (h : InvW s) (r : String) :
    aliveFor r s ≤ 1 := by
  obtain ⟨hB, hC, hD, hE, hF, hG, hA1, hA3, hA0⟩ := h
  unfold aliveFor
  have hp : (s.insts.filter
      (fun w => decide (w.root = r) && !w.disposedW)).Pairwise
      (fun a b => a.wid ≠ b.wid) :=
    List.Pairwise.sublist (List.filter_sublist _) hD
  have hk : ∀ x ∈ s.insts.filter
      (fun w => decide (w.root = r) && !w.disposedW),
      s.registry r = some x.wid := by
    intro x hx
    have hm := (List.mem_filter.mp hx).1
    have hpx := (List.mem_filter.mp hx).2
    simp only [Bool.and_eq_true, decide_eq_true_eq,
      Bool.not_eq_true'] at hpx
    obtain ⟨hroot, hdisp⟩ := hpx
    rw [← hroot]
    exact hC x hm hdisp
  generalize hl : s.insts.filter
      (fun w => decide (w.root = r) && !w.disposedW) = l at hp hk ⊢
  match l, hp, hk with
  | [], _, _ => exact Nat.zero_le 1
  | [x], _, _ => exact Nat.le_refl 1
  | x :: y :: t, hp2, hk2 =>
    exfalso
    have hxy : x.wid ≠ y.wid :=
      (List.pairwise_cons.mp hp2).1 y (by simp)
    have hx := hk2 x (by simp)
    have hy := hk2 y (by simp)
    rw [hx] at hy
    injection hy with hy
    exact hxy hy

/-- C4: in every reachable watch-subsystem state at most one
    GitIndexWatcher per repository root is alive; concretely, two watch
    subscriptions resolved for the same root "/r" yield exactly one live
    instance, disposing one of them keeps that instance alive and
    registered, and disposing both leaves zero live instances for "/r"
    with the registry entry erased. -/
theorem c4_watcher_registry_invariant :
    (∀ s : WState, ReachableW s → ∀ r : String, aliveFor r s ≤ 1) ∧
    aliveFor "/r" (runW [.call "/r", .call "/r",
      .resolve 0, .resolve 1]) = 1 ∧
    (aliveFor "/r" (runW [.call "/r", .call "/r",
        .resolve 0, .resolve 1, .dispose 0]) = 1 ∧
      (runW [.call "/r", .call "/r", .resolve 0, .resolve 1,
        .dispose 0]).registry "/r" ≠ none) ∧
    (aliveFor "/r" (runW [.call "/r", .call "/r",
        .resolve 0, .resolve 1, .dispose 0, .dispose 1]) = 0 ∧
      (runW [.call "/r", .call "/r", .resolve 0, .resolve 1,
        .dispose 0, .dispose 1]).registry "/r" = none) := by
  refine ⟨?_, by decide, ⟨by decide, by decide⟩, ⟨by decide, by decide⟩⟩
  intro s hs r
  exact aliveFor_le_one s (invW_reachable s hs) r

theorem c4_watcher_registry_invariant_witness :
    aliveFor "/r" (runW [.call "/r", .call "/r",
      .resolve 0, .resolve 1]) ≤ 1 :=
  c4_watcher_registry_invariant.1
    (runW [.call "/r", .call "/r", .resolve 0, .resolve 1])
    ⟨[.call "/r", .call "/r", .resolve 0, .resolve 1], rfl⟩ "/r"
